import Mathlib

/-!
Verification of the zero-copy, resumable range-scanning core of the
`combine` parser library (`src/parser/range.rs`).

The embedding works over a concrete stream: a fully materialized list of
items `data`, a cursor `pos`, and a flag `more` saying whether additional
input may still arrive after the current end (`is_partial`).  Checkpoints
are cursor positions, a `Range` is the materialized list of items of the
unconsed span, and the four-way `ConsumedResult` tag of the Rust code is
the inductive `FastResult`.  The `panic!`/`unreachable!` paths of the Rust
code are modelled by returning `none` from the affected entry points.
-/

namespace Combine

/-- Raw stream-level errors, as produced by the stream collaborator. -/
inductive StreamError : Type where
  | endOfInput : StreamError
  | unexpectedToken : StreamError
deriving DecidableEq, Repr

/-- A parse error: the position it was constructed at plus the wrapped
stream error (`none` models `Error::empty(position)`, the information-free
error used by the `range` primitive on a mismatch). -/
structure ParseError : Type where
  position : Nat
  kind : Option StreamError
deriving DecidableEq, Repr

/-- The four-way tagged outcome `FastResult`/`ConsumedResult` of the code:
consumed/empty crossed with ok/err. -/
inductive FastResult (T : Type) : Type where
  | consumedOk (t : T) : FastResult T
  | emptyOk (t : T) : FastResult T
  | consumedErr (e : ParseError) : FastResult T
  | emptyErr (e : ParseError) : FastResult T
deriving DecidableEq, Repr

namespace FastResult

/-- The `.map` of `ConsumedResult`: apply a function to the value of the
two ok variants, leave errors alone. -/
def mapF (f : T → U) : FastResult T → FastResult U
  | consumedOk t => consumedOk (f t)
  | emptyOk t => emptyOk (f t)
  | consumedErr e => consumedErr e
  | emptyErr e => emptyErr e

end FastResult

/-- Modelled from the spec: the Cursor/Stream collaborator (spec section 4.1)
over fully materialized storage.  `data` is every item that has arrived so
far, `pos` the cursor, and `more` the `is_partial` answer: whether input
beyond `data` may still arrive. -/
structure PStream (α : Type) : Type where
  data : List α
  pos : Nat
  more : Bool
deriving DecidableEq, Repr

namespace PStream

/-- Modelled from the spec: `checkpoint()` returns an opaque snapshot of the
cursor location; here the position itself. -/
def checkpoint (s : PStream α) : Nat := s.pos

/-- Modelled from the spec: `reset(Position)` rewinds the cursor to a
checkpoint. -/
def reset (s : PStream α) (cp : Nat) : PStream α := { s with pos := cp }

/-- Modelled from the spec: `distance(Position)` counts the items consumed
since the checkpoint. -/
def distance (s : PStream α) (cp : Nat) : Nat := s.pos - cp

/-- Modelled from the spec: the stream method `uncons()` reads and advances
by one item, or fails with an end-of-input stream error. -/
def unconsM (s : PStream α) : Except StreamError (α × PStream α) :=
  match s.data.drop s.pos with
  | [] => .error .endOfInput
  | x :: _ => .ok (x, { s with pos := s.pos + 1 })

/-- Modelled from the spec: the stream method `uncons_range(n)` reads and
advances by exactly `n` items, or fails without any partial advancement if
fewer than `n` are currently available. -/
def unconsRangeM (s : PStream α) (n : Nat) : Except StreamError (List α × PStream α) :=
  if s.pos + n ≤ s.data.length then
    .ok ((s.data.drop s.pos).take n, { s with pos := s.pos + n })
  else
    .error .endOfInput

/-- Modelled from the spec: `input_at_eof`, true when the cursor has reached
the end of the currently available items. -/
def atEof (s : PStream α) : Bool := s.data.length ≤ s.pos

end PStream

open PStream

/-- Modelled from the spec: the error-wrapping hook `wrap_stream_error`,
which converts a raw stream failure into a parse error at the current
position.  On a partial stream an insufficient-input failure is potentially
transient and is the trigger for suspension, so it is tagged Consumed; on a
fully materialized stream it is final and tagged Empty (spec sections 4.1
and 7). -/
def wrapStreamError (s : PStream α) (e : StreamError) : FastResult T :=
  if s.more then .consumedErr ⟨s.pos, some e⟩ else .emptyErr ⟨s.pos, some e⟩

/-- Modelled from the spec: the free function `stream::uncons_range`, which
calls the stream method and wraps failures; a zero-length read is tagged
Empty, a positive one Consumed. -/
def unconsRange (s : PStream α) (n : Nat) : FastResult (List α) × PStream α :=
  match s.unconsRangeM n with
  | .error e => (wrapStreamError s e, s)
  | .ok (r, s') => (if n = 0 then .emptyOk r else .consumedOk r, s')

/-- Modelled from the spec: the free function `stream::uncons_while`, which
consumes the maximal prefix of items satisfying the predicate.  On a
partial stream that was exhausted by the scan the result must be a failure
(the next chunk may extend the matching prefix), reported through
`wrapStreamError`; otherwise an empty match is tagged Empty and a nonempty
one Consumed (spec sections 4.2 and 4.3). -/
def unconsWhile (s : PStream α) (p : α → Bool) : FastResult (List α) × PStream α :=
  let r := (s.data.drop s.pos).takeWhile p
  let s' : PStream α := { s with pos := s.pos + r.length }
  if s.more && s'.atEof then (wrapStreamError s' .endOfInput, s')
  else if r.length = 0 then (.emptyOk r, s') else (.consumedOk r, s')

/-- Modelled from the spec: the free function `stream::uncons_while1`: as
`unconsWhile` but requiring at least one match.  At the end of the
available input the failure is the insufficient-input kind (transient on a
partial stream); a first item that fails the predicate is a definitive
predicate-not-satisfied empty error that consumes nothing (spec sections
4.2 and 7). -/
def unconsWhile1 (s : PStream α) (p : α → Bool) : FastResult (List α) × PStream α :=
  match s.data.drop s.pos with
  | [] => (wrapStreamError s .endOfInput, s)
  | x :: _ =>
    if p x then unconsWhile s p
    else (.emptyErr ⟨s.pos, some .unexpectedToken⟩, s)

/-- The `range(r)` primitive's `parse_lazy` (src lines 33-46): uncons a
range of length `r.length` and compare it with `r`.  Note that on a
mismatch the code returns an Empty error without resetting the cursor. -/
def rangeParse [DecidableEq α] (r : List α) (s : PStream α) :
    FastResult (List α) × PStream α :=
  let position := s.pos
  match s.unconsRangeM r.length with
  | .ok (other, s') =>
    if other = r then (.consumedOk other, s')
    else (.emptyErr ⟨position, none⟩, s')
  | .error err => (wrapStreamError s err, s)

/-- The `take(n)` primitive's `parse_lazy` (src lines 258-262): exactly the
free `uncons_range`. -/
def takeParse (n : Nat) (s : PStream α) : FastResult (List α) × PStream α :=
  unconsRange s n

/-- The generic partial-resume scaffold `parse_partial_range` (src lines
84-132).  `isFirst` models `mode.is_first()`; the `first`/`resume` closures
carry their captured state.  The result carries the updated
`distance_state`; `none` models the `panic!` on a failed resume
fast-forward. -/
def parsePartialRange (isFirst : Bool) (s : PStream α) (distanceState : Nat)
    (first resume : PStream α → FastResult (List α) × PStream α) :
    Option (FastResult (List α) × PStream α × Nat) :=
  let before := s.checkpoint
  if s.more = false then
    let (r, s') := first s
    some (r, s', distanceState)
  else if isFirst || distanceState == 0 then
    let (r, s') := first s
    match r with
    | .consumedErr e => some (.consumedErr e, s'.reset before, s'.distance before)
    | _ => some (r, s', distanceState)
  else
    match s.unconsRangeM distanceState with
    | .error _ => none
    | .ok (_, s1) =>
      match resume s1 with
      | (.emptyErr e, s2) => some (.emptyErr e, s2, distanceState)
      | (.consumedErr e, s2) => some (.consumedErr e, s2.reset before, s2.distance before)
      | (.consumedOk _, s2) | (.emptyOk _, s2) =>
        let d := s2.distance before
        let s3 := s2.reset before
        match takeParse d s3 with
        | (.consumedOk rg, s4) => some (.consumedOk rg, s4, 0)
        | (.emptyOk rg, s4) => some (.emptyOk rg, s4, 0)
        | (.consumedErr e, s4) => some (.consumedErr e, s4, distanceState)
        | (.emptyErr e, s4) => some (.emptyErr e, s4, distanceState)

/-- The `take_while(p)` primitive's `parse_mode_impl` (src lines 305-324):
the scaffold with `uncons_while` as both the first and the resume
closure. -/
def takeWhileParse (p : α → Bool) (isFirst : Bool) (s : PStream α) (st : Nat) :
    Option (FastResult (List α) × PStream α × Nat) :=
  parsePartialRange isFirst s st (fun i => unconsWhile i p) (fun i => unconsWhile i p)

/-- The `take_while1(p)` primitive's `parse_mode_impl` (src lines 366-384):
the scaffold with `uncons_while1` as the first closure and `uncons_while`
as the resume closure. -/
def takeWhile1Parse (p : α → Bool) (isFirst : Bool) (s : PStream α) (st : Nat) :
    Option (FastResult (List α) × PStream α × Nat) :=
  parsePartialRange isFirst s st (fun i => unconsWhile1 i p) (fun i => unconsWhile i p)

/-- An arbitrary inner parser for the recognize family: a mode-aware parse
entry point over its own resumption-state type `σ`, with `init` the
default (first-attempt) state. -/
structure InnerParser (α β σ : Type) : Type where
  init : σ
  run : Bool → PStream α → σ → FastResult β × PStream α × σ

/-- The conditional fast-forward at the head of
`RecognizeWithValue::parse_mode` (src lines 161-165): in First mode the
stored distance is ignored; otherwise `uncons_range(distance_state)`
replays the already-validated prefix, and its failure is the fatal
`panic!` path (`none`). -/
def resumeStep (s : PStream α) (isFirst : Bool) (d : Nat) : Option (PStream α) :=
  if isFirst then some s
  else
    match s.unconsRangeM d with
    | .error _ => none
    | .ok (_, s1) => some s1

/-- The `RecognizeWithValue(P)` primitive's `parse_mode` (src lines
148-183).  The partial state is `(distance_state, child_state)`; `none`
models the `panic!` on a failed resume fast-forward. -/
def recognizeWithValueParse (P : InnerParser α β σ) (isFirst : Bool) (s : PStream α)
    (st : Nat × σ) : Option (FastResult (List α × β) × PStream α × (Nat × σ)) :=
  let distanceState := st.1
  let childState := st.2
  let before := s.checkpoint
  match resumeStep s isFirst distanceState with
  | none => none
  | some s1 =>
    match P.run isFirst s1 childState with
    | (.emptyErr e, s2, st2) => some (.emptyErr e, s2, (distanceState, st2))
    | (.consumedErr e, s2, st2) =>
      some (.consumedErr e, s2.reset before, (s2.distance before, st2))
    | (.consumedOk x, s2, st2) | (.emptyOk x, s2, st2) =>
      let d := s2.distance before
      let s3 := s2.reset before
      match takeParse d s3 with
      | (.consumedOk rg, s4) => some (.consumedOk (rg, x), s4, (0, st2))
      | (.emptyOk rg, s4) => some (.emptyOk (rg, x), s4, (0, st2))
      | (.consumedErr e, s4) => some (.consumedErr e, s4, (distanceState, st2))
      | (.emptyErr e, s4) => some (.emptyErr e, s4, (distanceState, st2))

/-- The `recognize(P)` primitive (src lines 72-82): `recognize_with_value`
with the value component of the output discarded by `.map`. -/
def recognizeParse (P : InnerParser α β σ) (isFirst : Bool) (s : PStream α)
    (st : Nat × σ) : Option (FastResult (List α) × PStream α × (Nat × σ)) :=
  match recognizeWithValueParse P isFirst s st with
  | none => none
  | some (r, s', st') => some (r.mapF Prod.fst, s', st')

theorem PStream.unconsRangeM_ok {α : Type} {s : PStream α} {n : Nat} {r : List α}
    {s' : PStream α} (h : s.unconsRangeM n = .ok (r, s')) :
    r = (s.data.drop s.pos).take n ∧ s' = { s with pos := s.pos + n } ∧
      s.pos + n ≤ s.data.length := by
  unfold PStream.unconsRangeM at h
  split at h
  · simp only [Except.ok.injEq, Prod.mk.injEq] at h
    exact ⟨h.1.symm, h.2.symm, by assumption⟩
  · exact absurd h (by simp)

theorem PStream.unconsM_ok {α : Type} {s : PStream α} {x : α} {s' : PStream α}
    (h : s.unconsM = .ok (x, s')) :
    s' = { s with pos := s.pos + 1 } ∧ s.pos < s.data.length := by
  unfold PStream.unconsM at h
  split at h
  · exact absurd h (by simp)
  · next heq =>
    simp only [Except.ok.injEq, Prod.mk.injEq] at h
    refine ⟨h.2.symm, ?_⟩
    have := congrArg List.length heq
    simp only [List.length_drop, List.length_cons] at this
    omega

theorem PStream.unconsM_err {α : Type} {s : PStream α} {e : StreamError}
    (h : s.unconsM = .error e) : e = .endOfInput ∧ s.data.length ≤ s.pos := by
  unfold PStream.unconsM at h
  split at h
  · next heq =>
    simp only [Except.error.injEq] at h
    have := congrArg List.length heq
    simp only [List.length_drop, List.length_nil] at this
    exact ⟨h.symm, by omega⟩
  · exact absurd h (by simp)

theorem PStream.unconsRangeM_err {α : Type} {s : PStream α} {n : Nat} {e : StreamError}
    (h : s.unconsRangeM n = .error e) :
    e = .endOfInput ∧ s.data.length < s.pos + n := by
  unfold PStream.unconsRangeM at h
  split at h
  · exact absurd h (by simp)
  · simp only [Except.error.injEq] at h
    exact ⟨h.symm, by omega⟩

/-- The scan loop of `TakeUntilRange::parse_partial` (src lines 441-499).
`before` is the `start` checkpoint, `firstErr` the
`first_stream_error` accumulator (error plus its distance from `before`),
and `tc` the incoming `to_consume` state.  `none` models the two
`unreachable!` arms. -/
def takeUntilLoop [DecidableEq α] (tgt : List α) (before : Nat)
    (firstErr : Option (StreamError × Nat)) (tc : Nat) (s : PStream α) :
    Option (FastResult (List α) × PStream α × Nat) :=
  let lookAhead := s.checkpoint
  match ho : s.unconsRangeM tgt.length with
  | .ok (xs, s1) =>
    if xs = tgt then
      let d := s1.distance before - tgt.length
      let s2 := s1.reset before
      match s2.unconsRangeM d with
      | .ok (consumed, s3) =>
        if d = 0 then some (.emptyOk consumed, s3, tc)
        else some (.consumedOk consumed, s3, 0)
      | .error _ => none
    else
      let s2 := s1.reset lookAhead
      match h : s2.unconsM with
      | .ok (_, s3) => takeUntilLoop tgt before firstErr tc s3
      | .error _ => none
  | .error e =>
    let fe := match firstErr with
      | none => some (e, s.distance before)
      | some x => some x
    let s2 := s.reset lookAhead
    match h : s2.unconsM with
    | .ok (_, s3) => takeUntilLoop tgt before fe tc s3
    | .error _ =>
      match fe with
      | some (e0, d0) =>
        let s4 := s2.reset before
        some (wrapStreamError s4 e0, s4, d0)
      | none => none
termination_by s.data.length - s.pos
decreasing_by
  · obtain ⟨-, rfl, -⟩ := PStream.unconsRangeM_ok ho
    obtain ⟨rfl, hlt⟩ := PStream.unconsM_ok h
    unfold s2 lookAhead at hlt ⊢
    simp only [PStream.reset, PStream.checkpoint] at hlt ⊢
    omega
  · obtain ⟨rfl, hlt⟩ := PStream.unconsM_ok h
    unfold s2 lookAhead at hlt ⊢
    simp only [PStream.reset, PStream.checkpoint] at hlt ⊢
    omega

/-- The `take_until_range(tgt)` primitive's `parse_partial` entry (src
lines 427-440): checkpoint `start`, skip the `to_consume` distance of a
prior suspended attempt via `ctry!(uncons_range(..))`, then run the scan
loop. -/
def takeUntilRangeParse [DecidableEq α] (tgt : List α) (s : PStream α) (tc : Nat) :
    Option (FastResult (List α) × PStream α × Nat) :=
  let before := s.checkpoint
  match unconsRange s tc with
  | (.consumedErr e, s') => some (.consumedErr e, s', tc)
  | (.emptyErr e, s') => some (.emptyErr e, s', tc)
  | (.consumedOk _, s') | (.emptyOk _, s') => takeUntilLoop tgt before none tc s'

/-- A primitive of this core packaged uniformly for the suspend/resume
protocol: its default resumption state and its mode-aware parse entry (the
`Option` accommodates the fatal paths). -/
structure Prim (α R σ : Type) : Type where
  init : σ
  run : Bool → PStream α → σ → Option (FastResult R × PStream α × σ)

/-- The two-chunk suspend/resume protocol of the claims: call the primitive
in First mode on the first chunk presented as a partial stream; if that
call suspends (a Consumed-tagged error), call again in Resume mode with the
returned resumption state on the now fully materialized whole input;
otherwise keep the first call's outcome. -/
def chunked (P : Prim α R σ) (c1 c2 : List α) : Option (FastResult R) :=
  match P.run true ⟨c1, 0, true⟩ P.init with
  | none => none
  | some (.consumedErr _, _, st1) =>
    (P.run false ⟨c1 ++ c2, 0, false⟩ st1).map (fun x => x.1)
  | some (r, _, _) => some r

/-- One call in First mode on the whole, fully materialized input. -/
def oneShot (P : Prim α R σ) (l : List α) : Option (FastResult R) :=
  (P.run true ⟨l, 0, false⟩ P.init).map (fun x => x.1)

/-- `take(n)` as a protocol participant.  Its partial state is `()`: the
parser is stateless and re-attempted in full on resume. -/
def takePrim (α : Type) (n : Nat) : Prim α (List α) Unit :=
  ⟨(), fun _ s _ => some ((takeParse n s).1, (takeParse n s).2, ())⟩

/-- `take_while(p)` as a protocol participant. -/
def takeWhilePrim (p : α → Bool) : Prim α (List α) Nat :=
  ⟨0, fun m s st => takeWhileParse p m s st⟩

/-- `take_while1(p)` as a protocol participant. -/
def takeWhile1Prim (p : α → Bool) : Prim α (List α) Nat :=
  ⟨0, fun m s st => takeWhile1Parse p m s st⟩

/-- `take_until_range(tgt)` as a protocol participant; in First mode the
default (zero) `to_consume` state is passed to `parse_partial`. -/
def takeUntilPrim [DecidableEq α] (tgt : List α) : Prim α (List α) Nat :=
  ⟨0, fun _ s st => takeUntilRangeParse tgt s st⟩

/-- `recognize_with_value(P)` as a protocol participant. -/
def recognizeWithValuePrim (P : InnerParser α β σ) : Prim α (List α × β) (Nat × σ) :=
  ⟨(0, P.init), fun m s st => recognizeWithValueParse P m s st⟩

/-- `recognize(P)` as a protocol participant. -/
def recognizePrim (P : InnerParser α β σ) : Prim α (List α) (Nat × σ) :=
  ⟨(0, P.init), fun m s st => recognizeParse P m s st⟩

/-- The result of an inner-parser run is a success carrying `x`
(irrespective of the consumed/empty tag). -/
def isOkWith (r : FastResult β) (x : β) : Prop :=
  r = .consumedOk x ∨ r = .emptyOk x

/-- Basic well-behavedness of an inner parser, the part of the `Parser`
contract the recognize family relies on within one call: it only touches
the cursor (never the storage or the partial flag), never moves the cursor
backwards or past the end of the available input, and an Empty-tagged
error really does leave the cursor where the call began. -/
structure InnerContract (P : InnerParser α β σ) : Prop where
  dataEq : ∀ m s st, ((P.run m s st).2.1).data = s.data
  moreEq : ∀ m s st, ((P.run m s st).2.1).more = s.more
  posLe : ∀ m s st, s.pos ≤ (P.run m s st).2.1.pos
  posBound : ∀ m s st, s.pos ≤ s.data.length → (P.run m s st).2.1.pos ≤ s.data.length
  emptyErrPos : ∀ m s st e, (P.run m s st).1 = .emptyErr e → (P.run m s st).2.1.pos = s.pos

/-- Outcome equivalence of two inner-parser runs, as observed by the
recognize wrapper: the same success value at the same final cursor (the
consumed/empty tag of the inner success is immaterial, the wrapper
recomputes it from the distance), or the same error with the same tag. -/
def resEquiv (a b : FastResult β × PStream α × σ) : Prop :=
  (∃ x, isOkWith a.1 x ∧ isOkWith b.1 x ∧ a.2.1.pos = b.2.1.pos) ∨
  (∃ e, a.1 = .emptyErr e ∧ b.1 = .emptyErr e) ∨
  (∃ e, a.1 = .consumedErr e ∧ b.1 = .consumedErr e)

/-- The suspend/resume contract of an inner parser, relative to a first
chunk `c1` later extended to `c1 ++ c2`: a first-attempt success or
Empty-tagged failure on the partial first chunk is stable under completing
the input, and after a first-attempt suspension, resuming (in Resume mode,
from the recorded cursor, with the recorded state) is outcome-equivalent
to a fresh First-mode run on the whole input. -/
structure ChunkContract (P : InnerParser α β σ) extends InnerContract P : Prop where
  firstOkExt : ∀ c1 c2 x r s1 st1, P.run true ⟨c1, 0, true⟩ P.init = (r, s1, st1) →
    isOkWith r x →
    ∃ r2 st2, P.run true ⟨c1 ++ c2, 0, false⟩ P.init = (r2, ⟨c1 ++ c2, s1.pos, false⟩, st2) ∧
      isOkWith r2 x
  firstEmptyErrExt : ∀ c1 c2 e s1 st1, P.run true ⟨c1, 0, true⟩ P.init = (.emptyErr e, s1, st1) →
    ∃ s2 st2, P.run true ⟨c1 ++ c2, 0, false⟩ P.init = (.emptyErr e, s2, st2)
  resumeCoherent : ∀ c1 c2 e s1 st1,
    P.run true ⟨c1, 0, true⟩ P.init = (.consumedErr e, s1, st1) →
    resEquiv (P.run false ⟨c1 ++ c2, s1.pos, false⟩ st1) (P.run true ⟨c1 ++ c2, 0, false⟩ P.init)

@[simp] theorem PStream.checkpoint_mk (D : List α) (q : Nat) (m : Bool) :
    (PStream.mk D q m).checkpoint = q := rfl

@[simp] theorem PStream.reset_mk (D : List α) (q : Nat) (m : Bool) (cp : Nat) :
    (PStream.mk D q m).reset cp = ⟨D, cp, m⟩ := rfl

@[simp] theorem PStream.distance_mk (D : List α) (q : Nat) (m : Bool) (cp : Nat) :
    (PStream.mk D q m).distance cp = q - cp := rfl

@[simp] theorem PStream.data_reset (s : PStream α) (cp : Nat) : (s.reset cp).data = s.data := rfl

@[simp] theorem PStream.pos_reset (s : PStream α) (cp : Nat) : (s.reset cp).pos = cp := rfl

@[simp] theorem PStream.more_reset (s : PStream α) (cp : Nat) : (s.reset cp).more = s.more := rfl

theorem PStream.unconsRangeM_eq_ok (s : PStream α) (n : Nat) (h : s.pos + n ≤ s.data.length) :
    s.unconsRangeM n = .ok ((s.data.drop s.pos).take n, { s with pos := s.pos + n }) := by
  simp [PStream.unconsRangeM, h]

theorem PStream.unconsRangeM_eq_err (s : PStream α) (n : Nat) (h : s.data.length < s.pos + n) :
    s.unconsRangeM n = .error .endOfInput := by
  simp [PStream.unconsRangeM]
  omega

theorem PStream.unconsM_eq_ok (s : PStream α) (h : s.pos < s.data.length) :
    ∃ x, s.unconsM = .ok (x, { s with pos := s.pos + 1 }) := by
  unfold PStream.unconsM
  have hlen : (s.data.drop s.pos).length = s.data.length - s.pos := List.length_drop ..
  match hd : s.data.drop s.pos with
  | [] => rw [hd] at hlen; simp at hlen; omega
  | x :: xs => exact ⟨x, rfl⟩

theorem PStream.unconsM_eq_err (s : PStream α) (h : s.data.length ≤ s.pos) :
    s.unconsM = .error .endOfInput := by
  unfold PStream.unconsM
  have hd : s.data.drop s.pos = [] := List.drop_eq_nil_of_le h
  rw [hd]

/-- The target `tgt` occurs in `D` starting at index `j`: the next
`tgt.length` items of `D` from `j` exist and equal `tgt`. -/
def occursAt (D tgt : List α) (j : Nat) : Prop :=
  j + tgt.length ≤ D.length ∧ (D.drop j).take tgt.length = tgt

instance [DecidableEq α] (D tgt : List α) (j : Nat) : Decidable (occursAt D tgt j) := by
  unfold occursAt; infer_instance

theorem occursAt_zero_len {D tgt : List α} (h : tgt.length = 0) :
    occursAt D tgt 0 := by
  have : tgt = [] := List.eq_nil_of_length_eq_zero h
  subst this
  exact ⟨by simp, by simp⟩

/-- One unfolding of the scan loop when the look-ahead window fits and
equals the target: reset to `start`, re-extract the scanned distance and
return it, Empty-tagged (state untouched) when the distance is zero,
Consumed-tagged (state cleared) otherwise. -/
theorem takeUntilLoop_found [DecidableEq α] {t D : List α} {m : Bool} {b q : Nat}
    (hbq : b ≤ q) (hfit : q + t.length ≤ D.length)
    (hw : (D.drop q).take t.length = t) (fe : Option (StreamError × Nat)) (tc : Nat) :
    takeUntilLoop t b fe tc ⟨D, q, m⟩ =
      some (if q = b then (.emptyOk ((D.drop b).take (q - b)), ⟨D, q, m⟩, tc)
            else (.consumedOk ((D.drop b).take (q - b)), ⟨D, q, m⟩, 0)) := by
  rw [takeUntilLoop]
  split
  next xs s1 ho =>
    obtain ⟨rfl, rfl, -⟩ := PStream.unconsRangeM_ok ho
    rw [if_pos hw]
    dsimp only [PStream.reset, PStream.checkpoint, PStream.distance]
    rw [show q + t.length - b - t.length = q - b from by omega]
    rw [PStream.unconsRangeM_eq_ok ⟨D, b, m⟩ (q - b) (by simp; omega)]
    rw [show b + (q - b) = q from by omega]
    dsimp only []
    by_cases hqb : q - b = 0
    · rw [if_pos hqb, if_pos (by omega : q = b)]
    · rw [if_neg hqb, if_neg (by omega : ¬ q = b)]
  next e ho =>
    obtain ⟨-, hlen⟩ := PStream.unconsRangeM_err ho
    simp at hlen
    omega

/-- One unfolding of the scan loop when the look-ahead window fits but
differs from the target: reset to the look-ahead checkpoint and advance by
a single item. -/
theorem takeUntilLoop_mismatch [DecidableEq α] {t D : List α} {m : Bool} {b q : Nat}
    (hfit : q + t.length ≤ D.length)
    (hw : (D.drop q).take t.length ≠ t) (fe : Option (StreamError × Nat)) (tc : Nat) :
    takeUntilLoop t b fe tc ⟨D, q, m⟩ = takeUntilLoop t b fe tc ⟨D, q + 1, m⟩ := by
  have hL : 1 ≤ t.length := by
    by_contra hL
    exact hw (by simp_all [List.eq_nil_of_length_eq_zero (by omega : t.length = 0)])
  have hq : q < D.length := by omega
  rw [takeUntilLoop]
  split
  next xs s1 ho =>
    obtain ⟨rfl, rfl, -⟩ := PStream.unconsRangeM_ok ho
    rw [if_neg hw]
    dsimp only [PStream.reset, PStream.checkpoint]
    split
    next x s3 h =>
      obtain ⟨rfl, -⟩ := PStream.unconsM_ok h
      rfl
    next h =>
      obtain ⟨-, hle⟩ := PStream.unconsM_err h
      simp [PStream.reset, PStream.checkpoint] at hle
      omega
  next e ho =>
    obtain ⟨-, hlen⟩ := PStream.unconsRangeM_err ho
    simp at hlen
    omega

/-- One unfolding of the scan loop when the look-ahead read fails but a
single-item advance is still possible: remember the failure (only if it is
the first one) and continue from the next position. -/
theorem takeUntilLoop_fail_step [DecidableEq α] {t D : List α} {m : Bool} {b q : Nat}
    (hfit : D.length < q + t.length) (hq : q < D.length)
    (fe : Option (StreamError × Nat)) (tc : Nat) :
    takeUntilLoop t b fe tc ⟨D, q, m⟩ =
      takeUntilLoop t b (some (fe.getD (.endOfInput, q - b))) tc ⟨D, q + 1, m⟩ := by
  rw [takeUntilLoop]
  split
  next xs s1 ho =>
    obtain ⟨-, -, hle⟩ := PStream.unconsRangeM_ok ho
    simp at hle
    omega
  next e ho =>
    obtain ⟨rfl, -⟩ := PStream.unconsRangeM_err ho
    dsimp only [PStream.reset, PStream.checkpoint, PStream.distance]
    split
    next x s3 h =>
      obtain ⟨rfl, -⟩ := PStream.unconsM_ok h
      cases fe <;> rfl
    next h =>
      obtain ⟨-, hle⟩ := PStream.unconsM_err h
      simp [PStream.reset, PStream.checkpoint] at hle
      omega

/-- One unfolding of the scan loop at a dead end (the look-ahead read fails
and no single item can be advanced): reset fully to `start`, store the
first recorded failure distance into `to_consume` and return that first
error, wrapped at the `start` position. -/
theorem takeUntilLoop_fail_end [DecidableEq α] {t D : List α} {m : Bool} {b q : Nat}
    (hfit : D.length < q + t.length) (hq : D.length ≤ q)
    (fe : Option (StreamError × Nat)) (tc : Nat) :
    takeUntilLoop t b fe tc ⟨D, q, m⟩ =
      some (wrapStreamError (⟨D, b, m⟩ : PStream α) (fe.getD (.endOfInput, q - b)).1,
        ⟨D, b, m⟩, (fe.getD (.endOfInput, q - b)).2) := by
  rw [takeUntilLoop]
  split
  next xs s1 ho =>
    obtain ⟨-, -, hle⟩ := PStream.unconsRangeM_ok ho
    simp at hle
    omega
  next e ho =>
    obtain ⟨rfl, -⟩ := PStream.unconsRangeM_err ho
    dsimp only [PStream.reset, PStream.checkpoint, PStream.distance]
    rw [PStream.unconsM_eq_err _ (by simpa using hq)]
    cases fe <;> rfl

/-- Full characterization of the scan loop on the success side: if the
least occurrence of the target at or beyond the current scan position is at
index `f`, the loop returns the span of the input from the `start`
checkpoint `b` up to `f`, leaves the cursor exactly at `f` (the match is
not consumed), tagged Empty with the state untouched when that span is
empty and Consumed with the state cleared otherwise. -/
theorem takeUntilLoop_success [DecidableEq α] {t D : List α} {m : Bool} {b q f : Nat}
    (hbq : b ≤ q) (hqf : q ≤ f) (hocc : occursAt D t f)
    (hmin : ∀ j, q ≤ j → j < f → ¬ occursAt D t j)
    (fe : Option (StreamError × Nat)) (tc : Nat) :
    takeUntilLoop t b fe tc ⟨D, q, m⟩ =
      some (if f = b then (.emptyOk ((D.drop b).take (f - b)), ⟨D, f, m⟩, tc)
            else (.consumedOk ((D.drop b).take (f - b)), ⟨D, f, m⟩, 0)) := by
  obtain ⟨k, rfl⟩ : ∃ k, f = q + k := ⟨f - q, by omega⟩
  clear hqf
  induction k generalizing q with
  | zero =>
    simp only [Nat.add_zero] at hocc hmin ⊢
    exact takeUntilLoop_found hbq hocc.1 hocc.2 fe tc
  | succ k ih =>
    have hfit : q + t.length ≤ D.length := by
      have := hocc.1; omega
    have hw : (D.drop q).take t.length ≠ t := fun hww =>
      hmin q le_rfl (by omega) ⟨hfit, hww⟩
    rw [takeUntilLoop_mismatch hfit hw]
    have hocc' : occursAt D t ((q + 1) + k) := by
      rw [show (q + 1) + k = q + (k + 1) from by omega]; exact hocc
    have hmin' : ∀ j, q + 1 ≤ j → j < (q + 1) + k → ¬ occursAt D t j := fun j h1 h2 =>
      hmin j (by omega) (by omega)
    have hres := ih (q := q + 1) (by omega) hocc' hmin'
    rw [show q + (k + 1) = (q + 1) + k from by omega]
    exact hres

/-- Scan loop with a first failure already recorded and no occurrence of
the target ahead: the loop walks to the end of the input, never overwrites
the recorded failure, resets to the `start` checkpoint `b` and returns the
recorded error wrapped at `b` with the recorded distance as the new
`to_consume`. -/
theorem takeUntilLoop_noFind_some [DecidableEq α] {t D : List α} {m : Bool} {b q : Nat}
    (hq : q ≤ D.length) (hL : 1 ≤ t.length)
    (hno : ∀ j, q ≤ j → ¬ occursAt D t j) (e0 : StreamError) (d0 : Nat) (tc : Nat) :
    takeUntilLoop t b (some (e0, d0)) tc ⟨D, q, m⟩ =
      some (wrapStreamError (⟨D, b, m⟩ : PStream α) e0, ⟨D, b, m⟩, d0) := by
  obtain ⟨k, hk⟩ : ∃ k, D.length = q + k := ⟨D.length - q, by omega⟩
  clear hq
  induction k generalizing q with
  | zero =>
    have hend := takeUntilLoop_fail_end (m := m) (b := b) (t := t) (D := D) (q := q)
      (by omega) (by omega) (some (e0, d0)) tc
    simpa using hend
  | succ k ih =>
    by_cases hfit : q + t.length ≤ D.length
    · have hw : (D.drop q).take t.length ≠ t := fun hww =>
        hno q le_rfl ⟨hfit, hww⟩
      rw [takeUntilLoop_mismatch hfit hw]
      exact ih (fun j h1 => hno j (by omega)) (by omega)
    · have hstep := takeUntilLoop_fail_step (m := m) (b := b) (t := t) (D := D) (q := q)
        (by omega) (by omega) (some (e0, d0)) tc
      rw [hstep]
      exact ih (fun j h1 => hno j (by omega)) (by omega)

/-- Scan loop entered with no recorded failure and no occurrence of the
target ahead: the first look-ahead failure happens at position
`max q (D.length + 1 - t.length)` and its distance from the `start`
checkpoint `b` is what ends up in `to_consume`; the cursor is reset to `b`
and the error is wrapped at `b`. -/
theorem takeUntilLoop_noFind_none [DecidableEq α] {t D : List α} {m : Bool} {b q : Nat}
    (hbq : b ≤ q) (hq : q ≤ D.length) (hL : 1 ≤ t.length)
    (hno : ∀ j, q ≤ j → ¬ occursAt D t j) (tc : Nat) :
    takeUntilLoop t b none tc ⟨D, q, m⟩ =
      some (wrapStreamError (⟨D, b, m⟩ : PStream α) .endOfInput, ⟨D, b, m⟩,
        max q (D.length + 1 - t.length) - b) := by
  obtain ⟨k, hk⟩ : ∃ k, D.length = q + k := ⟨D.length - q, by omega⟩
  induction k generalizing q with
  | zero =>
    have hend := takeUntilLoop_fail_end (m := m) (b := b) (t := t) (D := D) (q := q)
      (by omega) (by omega) none tc
    rw [hend]
    have : max q (D.length + 1 - t.length) = q := by omega
    rw [this]
    rfl
  | succ k ih =>
    by_cases hfit : q + t.length ≤ D.length
    · have hw : (D.drop q).take t.length ≠ t := fun hww =>
        hno q le_rfl ⟨hfit, hww⟩
      rw [takeUntilLoop_mismatch hfit hw]
      have hres := ih (q := q + 1) (by omega) (by omega) (fun j h1 => hno j (by omega)) (by omega)
      rw [hres]
      have : max (q + 1) (D.length + 1 - t.length) = max q (D.length + 1 - t.length) := by
        omega
      rw [this]
    · have hstep := takeUntilLoop_fail_step (m := m) (b := b) (t := t) (D := D) (q := q)
        (by omega) (by omega) none tc
      rw [hstep]
      simp only [Option.getD_none]
      have hres := takeUntilLoop_noFind_some (m := m) (b := b) (q := q + 1) (by omega) hL
        (fun j h1 => hno j (by omega)) .endOfInput (q - b) tc
      rw [hres]
      have hmax : max q (D.length + 1 - t.length) = q := by omega
      rw [hmax]

/-- Entering `parse_partial` with a skip distance that is available: the
`ctry!` fast-forward succeeds and the scan loop starts at the skipped
position with `start` at the entry cursor and no failure recorded. -/
theorem takeUntilRangeParse_skip [DecidableEq α] (tgt : List α) {D : List α} {q m tc}
    (h : q + tc ≤ D.length) :
    takeUntilRangeParse tgt ⟨D, q, m⟩ tc = takeUntilLoop tgt q none tc ⟨D, q + tc, m⟩ := by
  unfold takeUntilRangeParse
  dsimp only [PStream.checkpoint_mk]
  unfold unconsRange
  rw [PStream.unconsRangeM_eq_ok _ _ (by simpa using h)]
  dsimp only []
  by_cases htc : tc = 0
  · subst htc; rfl
  · rw [if_neg htc]

/-- Entering `parse_partial` with a skip distance that is not available:
the `ctry!` returns the wrapped stream error with the cursor and the
`to_consume` state untouched. -/
theorem takeUntilRangeParse_skip_fail [DecidableEq α] (tgt : List α) {D : List α} {q m tc}
    (h : D.length < q + tc) :
    takeUntilRangeParse tgt ⟨D, q, m⟩ tc =
      some (wrapStreamError (⟨D, q, m⟩ : PStream α) .endOfInput, ⟨D, q, m⟩, tc) := by
  unfold takeUntilRangeParse
  dsimp only [PStream.checkpoint_mk]
  unfold unconsRange
  rw [PStream.unconsRangeM_eq_err _ _ (by simpa using h)]
  unfold wrapStreamError
  cases m <;> simp

/-- A bounded no-occurrence hypothesis rules out occurrences everywhere. -/
theorem no_occursAt_of_bounded {D tgt : List α}
    (h : ∀ j, j ≤ D.length → ¬ occursAt D tgt j) : ∀ j, ¬ occursAt D tgt j := by
  intro j hc
  by_cases hj : j ≤ D.length
  · exact h j hj hc
  · exact absurd hc.1 (by omega)

/-- A target without occurrences (at reachable positions) is nonempty. -/
theorem one_le_len_of_no_occursAt {D tgt : List α}
    (h : ∀ j, j ≤ D.length → ¬ occursAt D tgt j) : 1 ≤ tgt.length := by
  by_contra hL
  exact h 0 (by omega) (occursAt_zero_len (by omega))

/-- C3: for every target `t` and fully materialized input, `take_until_range(t)`
succeeds with exactly the prefix strictly before the first occurrence of `t`
(also when `t` occurs several times) and leaves the cursor positioned exactly
at the start of that occurrence, the match itself unconsumed; on an input not
containing `t` at all it fails. -/
theorem claim_C3_take_until_first_occurrence [DecidableEq α] (tgt D : List α) :
    (∀ f, occursAt D tgt f → (∀ j, j < f → ¬ occursAt D tgt j) →
      takeUntilRangeParse tgt ⟨D, 0, false⟩ 0 =
        some ((if f = 0 then .emptyOk (D.take f) else .consumedOk (D.take f)),
          ⟨D, f, false⟩, 0)) ∧
    ((∀ j, j ≤ D.length → ¬ occursAt D tgt j) →
      takeUntilRangeParse tgt ⟨D, 0, false⟩ 0 =
        some (.emptyErr ⟨0, some .endOfInput⟩, ⟨D, 0, false⟩,
          D.length + 1 - tgt.length)) := by
  constructor
  · intro f hocc hmin
    rw [takeUntilRangeParse_skip tgt (by omega)]
    have h := takeUntilLoop_success (m := false) (b := 0) (q := 0) (f := f)
      (by omega) (by omega) hocc (fun j _ hj => hmin j hj) none 0
    rw [h]
    by_cases hf : f = 0
    · subst hf; simp
    · simp [hf]
  · intro hno
    rw [takeUntilRangeParse_skip tgt (by omega)]
    rw [takeUntilLoop_noFind_none (by omega) (by omega) (one_le_len_of_no_occursAt hno)
      (fun j _ => no_occursAt_of_bounded hno j) 0]
    simp [wrapStreamError]

/-- Witness for C3 at concrete inputs: target `[0,1]` occurs in
`[2,0,1,3]` first at index 1, and `[9]` never occurs in `[2,0]`. -/
theorem claim_C3_witness :
    takeUntilRangeParse [0, 1] (⟨[2, 0, 1, 3], 0, false⟩ : PStream Nat) 0 =
      some (.consumedOk [2], ⟨[2, 0, 1, 3], 1, false⟩, 0) ∧
    takeUntilRangeParse [9] (⟨[2, 0], 0, false⟩ : PStream Nat) 0 =
      some (.emptyErr ⟨0, some .endOfInput⟩, ⟨[2, 0], 0, false⟩, 2) := by
  constructor
  · have h := (claim_C3_take_until_first_occurrence [0, 1] [2, 0, 1, 3]).1 1
      (by decide) (by decide)
    simpa using h
  · have h := (claim_C3_take_until_first_occurrence [9] [2, 0]).2 (by decide)
    simpa using h

/-- C4: in the scan loop of `take_until_range`, when no occurrence of the
target exists the loop eventually cannot advance; the cursor is reset fully
to the start checkpoint, the stored `to_consume` becomes the distance from
the start of the FIRST recorded look-ahead failure — the earliest scan
position whose look-ahead window no longer fits, `max (q + tc)
(D.length + 1 - tgt.length)` — never a later failure's distance, and the
result is that first stream error wrapped (at the reset position). -/
theorem claim_C4_first_failure_recorded [DecidableEq α] (tgt D : List α)
    (m : Bool) (q tc : Nat) (hsk : q + tc ≤ D.length)
    (hno : ∀ j, j ≤ D.length → ¬ occursAt D tgt j) :
    takeUntilRangeParse tgt ⟨D, q, m⟩ tc =
      some (wrapStreamError (⟨D, q, m⟩ : PStream α) .endOfInput, ⟨D, q, m⟩,
        max (q + tc) (D.length + 1 - tgt.length) - q) := by
  rw [takeUntilRangeParse_skip tgt hsk]
  exact takeUntilLoop_noFind_none (by omega) (by omega) (one_le_len_of_no_occursAt hno)
    (fun j _ => no_occursAt_of_bounded hno j) tc

/-- Witness for C4 at a concrete input: scanning `[1,0]` for `[0,0]` fails,
with the first look-ahead failure at distance 1 recorded in `to_consume`. -/
theorem claim_C4_witness :
    takeUntilRangeParse [0, 0] (⟨[1, 0], 0, true⟩ : PStream Nat) 0 =
      some (wrapStreamError (⟨[1, 0], 0, true⟩ : PStream Nat) .endOfInput,
        ⟨[1, 0], 0, true⟩, max (0 + 0) ([1, 0].length + 1 - [0, 0].length) - 0) :=
  claim_C4_first_failure_recorded [0, 0] [1, 0] true 0 0 (by decide) (by decide)

/-- C10: `take_until_range` with an empty target succeeds immediately on the
first loop iteration for every input (including the empty one), returning an
Empty-tagged ok with the empty range, consuming nothing and leaving the
resumption state at zero. -/
theorem claim_C10_empty_target [DecidableEq α] (D : List α) (m : Bool) :
    takeUntilRangeParse ([] : List α) ⟨D, 0, m⟩ 0 =
      some (.emptyOk [], ⟨D, 0, m⟩, 0) := by
  rw [takeUntilRangeParse_skip _ (by omega)]
  have h := takeUntilLoop_found (m := m) (b := 0) (q := 0) (t := ([] : List α)) (D := D)
    (by omega) (by simp) (by simp) none 0
  simpa using h

theorem takeWhile_all (p : α → Bool) (l : List α) : (l.takeWhile p).all p = true := by
  induction l with
  | nil => rfl
  | cons a t ih =>
    rw [List.takeWhile_cons]
    by_cases h : p a = true
    · simp [h, ih]
    · simp [h]

theorem length_takeWhile_ge (p : α → Bool) {l : List α} {k : Nat}
    (hk : k ≤ l.length) (h : (l.take k).all p = true) : k ≤ (l.takeWhile p).length := by
  induction l generalizing k with
  | nil => simp at hk; omega
  | cons a t ih =>
    cases k with
    | zero => omega
    | succ k' =>
      simp only [List.take_succ_cons, List.all_cons, Bool.and_eq_true] at h
      rw [List.takeWhile_cons, if_pos h.1]
      simp only [List.length_cons]
      have := ih (k := k') (by simpa using hk) h.2
      omega

theorem drop_length_takeWhile (p : α → Bool) (l : List α) :
    l.drop (l.takeWhile p).length = l.dropWhile p := by
  induction l with
  | nil => rfl
  | cons a t ih =>
    rw [List.takeWhile_cons, List.dropWhile_cons]
    by_cases h : p a = true
    · simp [h, ih]
    · simp [h]

theorem takeWhile_dropWhile_nil (p : α → Bool) (l : List α) :
    (l.dropWhile p).takeWhile p = [] := by
  induction l with
  | nil => rfl
  | cons a t ih =>
    rw [List.dropWhile_cons]
    by_cases h : p a = true
    · simp [h, ih]
    · simp [h, List.takeWhile_cons]

theorem unconsWhile_complete (p : α → Bool) (D : List α) (q : Nat) :
    unconsWhile ⟨D, q, false⟩ p =
      ((if ((D.drop q).takeWhile p).length = 0 then .emptyOk ((D.drop q).takeWhile p)
        else .consumedOk ((D.drop q).takeWhile p)),
       ⟨D, q + ((D.drop q).takeWhile p).length, false⟩) := by
  unfold unconsWhile
  simp only [Bool.false_and, if_neg (by simp : ¬ (false = true))]
  split <;> rfl

theorem takeWhileParse_complete (p : α → Bool) (m : Bool) (D : List α) (q : Nat) (st : Nat) :
    takeWhileParse p m ⟨D, q, false⟩ st =
      some ((if ((D.drop q).takeWhile p).length = 0 then .emptyOk ((D.drop q).takeWhile p)
             else .consumedOk ((D.drop q).takeWhile p)),
        ⟨D, q + ((D.drop q).takeWhile p).length, false⟩, st) := by
  unfold takeWhileParse parsePartialRange
  dsimp only []
  rw [unconsWhile_complete]
  by_cases h0 : ((D.drop q).takeWhile p).length = 0 <;> simp [h0]

theorem takeWhile1Parse_complete (p : α → Bool) (m : Bool) (D : List α) (q : Nat) (st : Nat) :
    takeWhile1Parse p m ⟨D, q, false⟩ st =
      (match D.drop q with
       | [] => some (.emptyErr ⟨q, some .endOfInput⟩, ⟨D, q, false⟩, st)
       | x :: _ =>
         if p x then takeWhileParse p m ⟨D, q, false⟩ st
         else some (.emptyErr ⟨q, some .unexpectedToken⟩, ⟨D, q, false⟩, st)) := by
  unfold takeWhile1Parse takeWhileParse parsePartialRange unconsWhile1
  dsimp only []
  match hd : D.drop q with
  | [] => simp [wrapStreamError]
  | x :: xs =>
    by_cases hx : p x = true
    · simp [hx]
    · simp [hx]
/-- C7: on every fully materialized input, `take_while(p)` never fails and
returns exactly the maximal-length (possibly empty) prefix whose items all
satisfy `p`, leaving the cursor at the first item not satisfying `p`;
re-running it on the untouched leftover matches nothing more (an Empty ok
of the empty range). -/
theorem claim_C7_take_while_maximal_prefix (p : α → Bool) (D : List α) (m : Bool) (st : Nat) :
    (takeWhileParse p m ⟨D, 0, false⟩ st =
       some ((if (D.takeWhile p).length = 0 then .emptyOk (D.takeWhile p)
              else .consumedOk (D.takeWhile p)),
         ⟨D, (D.takeWhile p).length, false⟩, st)) ∧
    (D.takeWhile p).all p = true ∧
    (∀ k, k ≤ D.length → (D.take k).all p = true → k ≤ (D.takeWhile p).length) ∧
    (∀ m' st', takeWhileParse p m' ⟨D, (D.takeWhile p).length, false⟩ st' =
       some (.emptyOk [], ⟨D, (D.takeWhile p).length, false⟩, st')) := by
  refine ⟨?_, takeWhile_all p D, fun k hk h => length_takeWhile_ge p hk h, fun m' st' => ?_⟩
  · have h := takeWhileParse_complete p m D 0 st
    simpa using h
  · have h := takeWhileParse_complete p m' D (D.takeWhile p).length st'
    rw [drop_length_takeWhile, takeWhile_dropWhile_nil] at h
    simpa using h

/-- Witness for C7: even digits of `[2,4,5]` are the prefix `[2,4]`. -/
theorem claim_C7_witness :
    takeWhileParse (fun n => decide (n % 2 = 0)) true (⟨[2, 4, 5], 0, false⟩ : PStream Nat) 0 =
      some (.consumedOk [2, 4], ⟨[2, 4, 5], 2, false⟩, 0) ∧
    2 ≤ ([2, 4, 5].takeWhile (fun n => decide (n % 2 = 0))).length := by
  have h := claim_C7_take_while_maximal_prefix (fun n => decide (n % 2 = 0)) [2, 4, 5] true 0
  exact ⟨by rw [h.1]; decide, h.2.2.1 2 (by decide) (by decide)⟩

theorem takeWhile1Parse_atEnd (p : α → Bool) (m : Bool) {D : List α} {q : Nat} (st : Nat)
    (h : D.length ≤ q) :
    takeWhile1Parse p m ⟨D, q, false⟩ st =
      some (.emptyErr ⟨q, some .endOfInput⟩, ⟨D, q, false⟩, st) := by
  rw [takeWhile1Parse_complete, List.drop_eq_nil_of_le (by simpa using h)]

theorem takeWhile1Parse_headFail (p : α → Bool) (m : Bool) {D : List α} {q : Nat} {x : α}
    {xs : List α} (st : Nat) (hd : D.drop q = x :: xs) (hx : ¬ p x = true) :
    takeWhile1Parse p m ⟨D, q, false⟩ st =
      some (.emptyErr ⟨q, some .unexpectedToken⟩, ⟨D, q, false⟩, st) := by
  rw [takeWhile1Parse_complete, hd]
  dsimp only []
  rw [if_neg hx]

theorem takeWhile1Parse_headOk (p : α → Bool) (m : Bool) {D : List α} {q : Nat} {x : α}
    {xs : List α} (st : Nat) (hd : D.drop q = x :: xs) (hx : p x = true) :
    takeWhile1Parse p m ⟨D, q, false⟩ st = takeWhileParse p m ⟨D, q, false⟩ st := by
  rw [takeWhile1Parse_complete, hd]
  dsimp only []
  rw [if_pos hx]

/-- C6: on every fully materialized input, `take_while1(p)` fails with an
Empty-tagged error leaving the cursor and state untouched exactly when zero
leading items satisfy `p`; with at least one leading match it behaves
exactly as `take_while(p)`. -/
theorem claim_C6_take_while1_empty_error_iff (p : α → Bool) (D : List α) (m : Bool) (st : Nat) :
    ((D.takeWhile p).length = 0 →
       ∃ e, takeWhile1Parse p m ⟨D, 0, false⟩ st =
         some (.emptyErr e, ⟨D, 0, false⟩, st)) ∧
    (1 ≤ (D.takeWhile p).length →
       takeWhile1Parse p m ⟨D, 0, false⟩ st = takeWhileParse p m ⟨D, 0, false⟩ st ∧
       ∀ e s' st', takeWhile1Parse p m ⟨D, 0, false⟩ st ≠ some (.emptyErr e, s', st')) := by
  constructor
  · intro h0
    cases D with
    | nil => exact ⟨_, takeWhile1Parse_atEnd p m st (by simp)⟩
    | cons x xs =>
      have hx : ¬ p x = true := by
        intro hx
        rw [List.takeWhile_cons, if_pos hx] at h0
        simp at h0
      exact ⟨_, takeWhile1Parse_headFail p m st (by rfl) hx⟩
  · intro hlen
    cases D with
    | nil => simp at hlen
    | cons x xs =>
      have hx : p x = true := by
        by_contra hx
        rw [List.takeWhile_cons, if_neg hx] at hlen
        simp at hlen
      have heq := takeWhile1Parse_headOk p m (D := x :: xs) (q := 0) st (by rfl) hx
      refine ⟨heq, fun e s' st' hcontra => ?_⟩
      rw [heq] at hcontra
      have h2 := takeWhileParse_complete p m (x :: xs) 0 st
      simp only [List.drop_zero] at h2
      rw [h2] at hcontra
      have h0 : ¬ ((x :: xs).takeWhile p).length = 0 := by
        rw [List.takeWhile_cons, if_pos hx]
        simp
      rw [if_neg h0] at hcontra
      simp at hcontra

/-- C9: in the generic partial-resume scaffold on a partial stream, when
the mode is First or the stored distance is zero and the `first` scan
closure returns a Consumed-tagged error, the scaffold stores the distance
traveled since the pre-call checkpoint into the resumption state and resets
the cursor to that checkpoint, leaving the stream position as it was before
the call. -/
theorem claim_C9_scaffold_suspension {α : Type} (s s' : PStream α) (dst : Nat) (isFirst : Bool)
    (first resume : PStream α → FastResult (List α) × PStream α) (e : ParseError)
    (hmore : s.more = true) (hmode : isFirst = true ∨ dst = 0)
    (hrun : first s = (.consumedErr e, s')) :
    parsePartialRange isFirst s dst first resume =
      some (.consumedErr e, s'.reset s.pos, s'.distance s.pos) := by
  unfold parsePartialRange
  rw [if_neg (by simp [hmore])]
  have hcond : (isFirst || dst == 0) = true := by
    rcases hmode with h | h
    · simp [h]
    · simp [h]
  rw [if_pos hcond, hrun]
  rfl

/-- Witness for C9: a first closure that consumes two items and fails
Consumed; the scaffold records distance 2 and resets the cursor to 0. -/
theorem claim_C9_witness :
    parsePartialRange true (⟨[7, 7, 7], 0, true⟩ : PStream Nat) 0
      (fun s => (.consumedErr ⟨2, some .endOfInput⟩, { s with pos := s.pos + 2 }))
      (fun s => (.emptyOk [], s)) =
      some (.consumedErr ⟨2, some .endOfInput⟩, ⟨[7, 7, 7], 0, true⟩, 2) := by
  have h := claim_C9_scaffold_suspension (⟨[7, 7, 7], 0, true⟩ : PStream Nat)
    (⟨[7, 7, 7], 2, true⟩ : PStream Nat) 0 true
    (fun s => (.consumedErr ⟨2, some .endOfInput⟩, { s with pos := s.pos + 2 }))
    (fun s => (.emptyOk [], s)) ⟨2, some .endOfInput⟩ rfl (Or.inl rfl) rfl
  simpa using h

/-- C5: when called in Resume mode with a nonzero stored distance whose
fast-forward `uncons_range` replay fails, neither the generic partial-resume
scaffold nor `RecognizeWithValue` returns an ordinary recoverable parse
Outcome: both take the fatal `panic!` path (modelled as `none`). -/
theorem claim_C5_resume_fastforward_fatal {α β σ : Type} (s : PStream α) (dst : Nat)
    (first resume : PStream α → FastResult (List α) × PStream α)
    (P : InnerParser α β σ) (cst : σ)
    (hmore : s.more = true) (hdst : dst ≠ 0) (hfail : s.data.length < s.pos + dst) :
    parsePartialRange false s dst first resume = none ∧
    recognizeWithValueParse P false s (dst, cst) = none := by
  constructor
  · unfold parsePartialRange
    rw [if_neg (by simp [hmore])]
    rw [if_neg (by simp [hdst])]
    rw [PStream.unconsRangeM_eq_err _ _ hfail]
  · unfold recognizeWithValueParse resumeStep
    dsimp only []
    rw [if_neg (by simp : ¬ (false = true))]
    rw [PStream.unconsRangeM_eq_err _ _ hfail]

/-- Witness for C5: replaying a stored distance of 2 over a one-item
stream panics in both entry points. -/
theorem claim_C5_witness :
    parsePartialRange false (⟨[3], 0, true⟩ : PStream Nat) 2
      (fun s => (.emptyOk [], s)) (fun s => (.emptyOk [], s)) = none ∧
    recognizeWithValueParse (⟨(), fun _ s st => (.emptyOk 0, s, st)⟩ : InnerParser Nat Nat Unit)
      false (⟨[3], 0, true⟩ : PStream Nat) (2, ()) = none :=
  claim_C5_resume_fastforward_fatal (⟨[3], 0, true⟩ : PStream Nat) 2
    (fun s => (.emptyOk [], s)) (fun s => (.emptyOk [], s))
    (⟨(), fun _ s st => (.emptyOk 0, s, st)⟩ : InnerParser Nat Nat Unit) ()
    rfl (by decide) (by decide)

@[simp] theorem resumeStep_first (s : PStream α) (d : Nat) : resumeStep s true d = some s := rfl

/-- A resume fast-forward over an available prefix advances by exactly the
stored distance. -/
theorem resumeStep_resume_ok (s : PStream α) (d : Nat) (h : s.pos + d ≤ s.data.length) :
    resumeStep s false d = some { s with pos := s.pos + d } := by
  unfold resumeStep
  rw [if_neg (by simp : ¬ (false = true)), PStream.unconsRangeM_eq_ok _ _ h]

/-- The success path of `RecognizeWithValue::parse_mode`: after a
successful fast-forward and a successful inner run, the wrapper resets,
re-extracts the total span via `take`, clears the stored distance, and
tags the outcome by whether the distance is zero. -/
theorem rwv_ok {α β σ : Type} (P : InnerParser α β σ) {isFirst : Bool} {s s1 s2 : PStream α}
    {d0 : Nat} {st st2 : σ} {r : FastResult β} {x : β}
    (hstep : resumeStep s isFirst d0 = some s1)
    (hrun : P.run isFirst s1 st = (r, s2, st2)) (hok : isOkWith r x)
    (hdata : s2.data = s.data) (hmore : s2.more = s.more)
    (hle : s.pos ≤ s2.pos) (hbound : s2.pos ≤ s.data.length) :
    recognizeWithValueParse P isFirst s (d0, st) =
      some ((if s2.pos - s.pos = 0 then
               .emptyOk ((s.data.drop s.pos).take (s2.pos - s.pos), x)
             else .consumedOk ((s.data.drop s.pos).take (s2.pos - s.pos), x)),
        { s with pos := s2.pos }, (0, st2)) := by
  obtain ⟨D, q, m⟩ := s
  obtain ⟨D2, p2, m2⟩ := s2
  simp only [] at hdata hmore hle hbound
  subst hdata hmore
  unfold recognizeWithValueParse
  dsimp only []
  rw [hstep]
  dsimp only []
  rw [hrun]
  rcases hok with rfl | rfl <;>
  · dsimp only [PStream.checkpoint_mk, PStream.distance_mk, PStream.reset_mk]
    unfold takeParse unconsRange
    rw [PStream.unconsRangeM_eq_ok _ _ (by simp; omega)]
    rw [show q + (p2 - q) = p2 from by omega]
    dsimp only []
    by_cases h0 : p2 - q = 0 <;> simp [h0]

/-- The Consumed-error path of `RecognizeWithValue::parse_mode`: store
the traveled distance, reset to the checkpoint, propagate. -/
theorem rwv_consumedErr {α β σ : Type} (P : InnerParser α β σ) {isFirst : Bool}
    {s s1 s2 : PStream α} {d0 : Nat} {st st2 : σ} {e : ParseError}
    (hstep : resumeStep s isFirst d0 = some s1)
    (hrun : P.run isFirst s1 st = (.consumedErr e, s2, st2)) :
    recognizeWithValueParse P isFirst s (d0, st) =
      some (.consumedErr e, s2.reset s.pos, (s2.pos - s.pos, st2)) := by
  unfold recognizeWithValueParse
  dsimp only []
  rw [hstep]
  dsimp only []
  rw [hrun]
  rfl

/-- The Empty-error path of `RecognizeWithValue::parse_mode`: propagate
verbatim with no state change. -/
theorem rwv_emptyErr {α β σ : Type} (P : InnerParser α β σ) {isFirst : Bool}
    {s s1 s2 : PStream α} {d0 : Nat} {st st2 : σ} {e : ParseError}
    (hstep : resumeStep s isFirst d0 = some s1)
    (hrun : P.run isFirst s1 st = (.emptyErr e, s2, st2)) :
    recognizeWithValueParse P isFirst s (d0, st) =
      some (.emptyErr e, s2, (d0, st2)) := by
  unfold recognizeWithValueParse
  dsimp only []
  rw [hstep]
  dsimp only []
  rw [hrun]
/-- C8: for every well-behaved inner parser `P` and every input on which
`P` succeeds, `recognize_with_value(P)` succeeds and returns the range
exactly equal to the span of input `P` consumed on that run paired with
`P`'s output, and `recognize(P)` returns that same range alone; the range
is determined by the consumed span only, independent of `P`'s output
value.  The final cursor sits at the end of the consumed span and the
stored distance is cleared. -/
theorem claim_C8_recognize_consumed_span {α β σ : Type} (P : InnerParser α β σ)
    (hC : InnerContract P) (s s2 : PStream α) (d0 : Nat) (st st2 : σ) (x : β)
    (r : FastResult β)
    (hvalid : s.pos ≤ s.data.length)
    (hrun : P.run true s st = (r, s2, st2)) (hok : isOkWith r x) :
    recognizeWithValueParse P true s (d0, st) =
      some ((if s2.pos - s.pos = 0 then
               .emptyOk ((s.data.drop s.pos).take (s2.pos - s.pos), x)
             else .consumedOk ((s.data.drop s.pos).take (s2.pos - s.pos), x)),
        { s with pos := s2.pos }, (0, st2)) ∧
    recognizeParse P true s (d0, st) =
      some ((if s2.pos - s.pos = 0 then
               .emptyOk ((s.data.drop s.pos).take (s2.pos - s.pos))
             else .consumedOk ((s.data.drop s.pos).take (s2.pos - s.pos))),
        { s with pos := s2.pos }, (0, st2)) := by
  have hdata : s2.data = s.data := by have h := hC.dataEq true s st; rw [hrun] at h; exact h
  have hmore : s2.more = s.more := by have h := hC.moreEq true s st; rw [hrun] at h; exact h
  have hle : s.pos ≤ s2.pos := by have h := hC.posLe true s st; rw [hrun] at h; exact h
  have hbound : s2.pos ≤ s.data.length := by
    have h := hC.posBound true s st hvalid; rw [hrun] at h; exact h
  have h1 := rwv_ok P (resumeStep_first s d0) hrun hok hdata hmore hle hbound
  refine ⟨h1, ?_⟩
  unfold recognizeParse
  rw [h1]
  by_cases h0 : s2.pos - s.pos = 0 <;> simp [h0, FastResult.mapF]

/-- A concrete well-behaved inner parser: consumes up to two items and
returns the value 99. -/
def sampleInner : InnerParser Nat Nat Unit :=
  ⟨(), fun _ s st => (.consumedOk 99, { s with pos := s.pos + min 2 (s.data.length - s.pos) }, st)⟩

/-- The sample inner parser satisfies the basic inner-parser contract. -/
theorem sampleInner_contract : InnerContract sampleInner := by
  refine ⟨?_, ?_, ?_, ?_, ?_⟩
  · intro m s st; rfl
  · intro m s st; rfl
  · intro m s st; simp [sampleInner]
  · intro m s st h; simp [sampleInner]; omega
  · intro m s st e h; exact absurd h (by simp [sampleInner])

/-- Witness for C8: the sample inner parser consumes `[5,6]` from
`[5,6,7]`; recognize returns exactly that span. -/
theorem claim_C8_witness :
    recognizeWithValueParse sampleInner true (⟨[5, 6, 7], 0, false⟩ : PStream Nat) (0, ()) =
      some (.consumedOk ([5, 6], 99), ⟨[5, 6, 7], 2, false⟩, (0, ())) ∧
    recognizeParse sampleInner true (⟨[5, 6, 7], 0, false⟩ : PStream Nat) (0, ()) =
      some (.consumedOk [5, 6], ⟨[5, 6, 7], 2, false⟩, (0, ())) := by
  have h := claim_C8_recognize_consumed_span sampleInner sampleInner_contract
    (⟨[5, 6, 7], 0, false⟩ : PStream Nat) (⟨[5, 6, 7], 2, false⟩ : PStream Nat) 0 () () 99
    (.consumedOk 99) (by decide) (by rfl) (Or.inl rfl)
  exact ⟨by simpa using h.1, by simpa using h.2⟩

/-- The scaffold on a fully materialized stream always takes the `first`
path directly, with no resumption bookkeeping. -/
theorem scaffold_complete_run (isFirst : Bool) (s : PStream α) (dst : Nat)
    (first resume : PStream α → FastResult (List α) × PStream α) (hm : s.more = false) :
    parsePartialRange isFirst s dst first resume = some ((first s).1, (first s).2, dst) := by
  unfold parsePartialRange
  rw [if_pos hm]

/-- The scaffold on a partial stream in First mode (or with zero stored
distance) runs `first` and, only on a Consumed-tagged error, records the
distance and resets. -/
theorem scaffold_partial_first_run (isFirst : Bool) (s : PStream α) (dst : Nat)
    (first resume : PStream α → FastResult (List α) × PStream α)
    (hm : s.more = true) (hf : (isFirst || dst == 0) = true) :
    parsePartialRange isFirst s dst first resume =
      match first s with
      | (.consumedErr e, s') => some (.consumedErr e, s'.reset s.pos, s'.distance s.pos)
      | (r, s') => some (r, s', dst) := by
  unfold parsePartialRange
  rw [if_neg (by simp [hm]), if_pos hf]
  obtain ⟨r, s'⟩ := first s
  cases r <;> rfl
/-- A look-ahead window that fits inside the first chunk is unchanged by
appending a second chunk. -/
theorem window_append {c1 c2 : List α} {j L : Nat} (h : j + L ≤ c1.length) :
    ((c1 ++ c2).drop j).take L = (c1.drop j).take L := by
  rw [List.drop_append_of_le_length (by omega)]
  rw [List.take_append_of_le_length (by simp [List.length_drop]; omega)]

/-- An occurrence whose window fits inside the first chunk is an
occurrence in the whole input, and conversely. -/
theorem occursAt_append_iff {c1 c2 tgt : List α} {j : Nat} (h : j + tgt.length ≤ c1.length) :
    occursAt (c1 ++ c2) tgt j ↔ occursAt c1 tgt j := by
  unfold occursAt
  rw [window_append h]
  simp only [List.length_append]
  constructor
  · rintro ⟨-, h2⟩; exact ⟨h, h2⟩
  · rintro ⟨-, h2⟩; exact ⟨by omega, h2⟩

/-- Chunking idempotence for `take(n)`. -/
theorem chunked_take_eq (n : Nat) (c1 c2 : List α) :
    chunked (takePrim α n) c1 c2 = oneShot (takePrim α n) (c1 ++ c2) := by
  unfold chunked oneShot takePrim takeParse unconsRange
  dsimp only []
  by_cases hn : n ≤ c1.length
  · rw [PStream.unconsRangeM_eq_ok _ _ (by simpa using hn)]
    rw [PStream.unconsRangeM_eq_ok _ _ (by simp; omega)]
    dsimp only []
    simp only [List.drop_zero]
    rw [List.take_append_of_le_length (by simpa using hn)]
    by_cases h0 : n = 0 <;> simp [h0]
  · rw [PStream.unconsRangeM_eq_err (⟨c1, 0, true⟩ : PStream α) _ (by simp; omega)]
    dsimp only [wrapStreamError]
    rw [if_pos rfl]
/-- The matched prefix is never longer than the input. -/
theorem takeWhile_length_le (p : α → Bool) (l : List α) :
    (l.takeWhile p).length ≤ l.length := by
  induction l with
  | nil => simp
  | cons a t ih =>
    rw [List.takeWhile_cons]
    by_cases h : p a = true
    · simp only [if_pos h, List.length_cons]
      omega
    · simp [if_neg h]

/-- `uncons_while` on a partial stream whose maximal match ends strictly
before the end of the available input succeeds. -/
theorem unconsWhile_partial_boundary (p : α → Bool) {D : List α} {q : Nat}
    (h : q + ((D.drop q).takeWhile p).length < D.length) :
    unconsWhile ⟨D, q, true⟩ p =
      ((if ((D.drop q).takeWhile p).length = 0 then .emptyOk ((D.drop q).takeWhile p)
        else .consumedOk ((D.drop q).takeWhile p)),
       ⟨D, q + ((D.drop q).takeWhile p).length, true⟩) := by
  unfold unconsWhile
  rw [if_neg (by simp [PStream.atEof]; omega)]
  split <;> rfl

/-- `uncons_while` on a partial stream that is exhausted by the scan fails
with a Consumed-tagged end-of-input error, cursor at the end. -/
theorem unconsWhile_partial_exhaust (p : α → Bool) {D : List α} {q : Nat}
    (h : D.length ≤ q + ((D.drop q).takeWhile p).length) :
    unconsWhile ⟨D, q, true⟩ p =
      (.consumedErr ⟨q + ((D.drop q).takeWhile p).length, some .endOfInput⟩,
       ⟨D, q + ((D.drop q).takeWhile p).length, true⟩) := by
  unfold unconsWhile
  rw [if_pos (by simp [PStream.atEof]; omega)]
  rfl

/-- A predicate scan that stops inside the first chunk gives the same
prefix on the extended input. -/
theorem takeWhile_append_eq_of_lt {p : α → Bool} {c1 c2 : List α}
    (h : (c1.takeWhile p).length < c1.length) :
    (c1 ++ c2).takeWhile p = c1.takeWhile p := by
  rw [List.takeWhile_append, if_neg (by omega)]

/-- Chunking idempotence for `take_while(p)`. -/
theorem chunked_takeWhile_eq (p : α → Bool) (c1 c2 : List α) :
    chunked (takeWhilePrim p) c1 c2 = oneShot (takeWhilePrim p) (c1 ++ c2) := by
  unfold chunked oneShot takeWhilePrim
  dsimp only []
  unfold takeWhileParse
  rw [scaffold_partial_first_run true ⟨c1, 0, true⟩ 0 _ _ rfl (by simp)]
  dsimp only []
  by_cases hb : 0 + ((c1.drop 0).takeWhile p).length < c1.length
  · rw [unconsWhile_partial_boundary p hb]
    rw [scaffold_complete_run true ⟨c1 ++ c2, 0, false⟩ 0 _ _ rfl]
    rw [unconsWhile_complete]
    have hF : ((c1 ++ c2).drop 0).takeWhile p = (c1.drop 0).takeWhile p := by
      simp only [List.drop_zero]
      exact takeWhile_append_eq_of_lt (by simpa using hb)
    rw [hF]
    by_cases h0 : ((c1.drop 0).takeWhile p).length = 0
    · rw [if_pos h0]; rfl
    · rw [if_neg h0]; rfl
  · rw [unconsWhile_partial_exhaust p (by omega)]
    dsimp only []
    rw [scaffold_complete_run false ⟨c1 ++ c2, 0, false⟩ _ _ _ rfl]
    rw [scaffold_complete_run true ⟨c1 ++ c2, 0, false⟩ 0 _ _ rfl]
    rw [unconsWhile_complete]
    simp
/-- Case analysis shape of `uncons_while1`. -/
theorem unconsWhile1_cases (p : α → Bool) (D : List α) (q : Nat) (m : Bool) :
    unconsWhile1 ⟨D, q, m⟩ p =
      match D.drop q with
      | [] => (wrapStreamError (⟨D, q, m⟩ : PStream α) .endOfInput, ⟨D, q, m⟩)
      | x :: _ => if p x then unconsWhile ⟨D, q, m⟩ p
                  else (.emptyErr ⟨q, some .unexpectedToken⟩, ⟨D, q, m⟩) := rfl

/-- Chunking idempotence for `take_while1(p)`. -/
theorem chunked_takeWhile1_eq (p : α → Bool) (c1 c2 : List α) :
    chunked (takeWhile1Prim p) c1 c2 = oneShot (takeWhile1Prim p) (c1 ++ c2) := by
  unfold chunked oneShot takeWhile1Prim
  dsimp only []
  unfold takeWhile1Parse
  rw [scaffold_partial_first_run true ⟨c1, 0, true⟩ 0 _ _ rfl (by simp)]
  rw [scaffold_complete_run true ⟨c1 ++ c2, 0, false⟩ 0 _ _ rfl]
  dsimp only []
  cases c1 with
  | nil =>
    rw [show unconsWhile1 (⟨[], 0, true⟩ : PStream α) p =
      (.consumedErr ⟨0, some .endOfInput⟩, (⟨[], 0, true⟩ : PStream α)) from rfl]
    dsimp only []
    rw [scaffold_complete_run false ⟨[] ++ c2, 0, false⟩ _ _ _ rfl]
    simp
  | cons x xs =>
    by_cases hx : p x = true
    · rw [unconsWhile1_cases p (x :: xs) 0 true, unconsWhile1_cases p (x :: xs ++ c2) 0 false]
      rw [show ((x :: xs).drop 0) = x :: xs from rfl]
      rw [show ((x :: xs ++ c2).drop 0) = x :: (xs ++ c2) from rfl]
      dsimp only []
      rw [if_pos hx, if_pos hx]
      by_cases hb : 0 + (((x :: xs).drop 0).takeWhile p).length < (x :: xs).length
      · rw [unconsWhile_partial_boundary p hb]
        rw [unconsWhile_complete]
        have hπ : (((x :: xs) ++ c2).drop 0).takeWhile p = ((x :: xs).drop 0).takeWhile p := by
          simp only [List.drop_zero]
          exact takeWhile_append_eq_of_lt (by simpa using hb)
        rw [hπ]
        have h0 : ¬ (((x :: xs).drop 0).takeWhile p).length = 0 := by
          simp [List.takeWhile_cons, hx]
        rw [if_neg h0]
        rfl
      · rw [unconsWhile_partial_exhaust p (by omega)]
        dsimp only []
        rw [scaffold_complete_run false ⟨x :: xs ++ c2, 0, false⟩ _ _ _ rfl]
        rw [unconsWhile1_cases p (x :: xs ++ c2) 0 false]
        rw [show ((x :: xs ++ c2).drop 0) = x :: (xs ++ c2) from rfl]
        dsimp only []
        rw [if_pos hx]
        rfl
    · rw [unconsWhile1_cases p (x :: xs) 0 true, unconsWhile1_cases p (x :: xs ++ c2) 0 false]
      rw [show ((x :: xs).drop 0) = x :: xs from rfl]
      rw [show ((x :: xs ++ c2).drop 0) = x :: (xs ++ c2) from rfl]
      dsimp only []
      rw [if_neg hx, if_neg hx]
      rfl
/-- Chunking idempotence for `take_until_range(tgt)`: a first-chunk
success is also the whole-input first occurrence; a suspension records the
earliest position a match could begin, and resuming from it on the whole
input finds exactly the whole-input result. -/
theorem chunked_takeUntil_eq [DecidableEq α] (tgt c1 c2 : List α) :
    chunked (takeUntilPrim tgt) c1 c2 = oneShot (takeUntilPrim tgt) (c1 ++ c2) := by
  unfold chunked oneShot takeUntilPrim
  dsimp only []
  rw [takeUntilRangeParse_skip tgt (by omega)]
  by_cases hocc : ∃ j, occursAt c1 tgt j
  · have hoccf : occursAt c1 tgt (Nat.find hocc) := Nat.find_spec hocc
    have hminf : ∀ j, j < Nat.find hocc → ¬ occursAt c1 tgt j := fun j hj =>
      Nat.find_min hocc hj
    rw [takeUntilLoop_success (b := 0) (q := 0) (f := Nat.find hocc) (by omega) (by omega)
      hoccf (fun j _ hj => hminf j hj) none 0]
    rw [takeUntilRangeParse_skip tgt (by omega)]
    have hoccF : occursAt (c1 ++ c2) tgt (Nat.find hocc) :=
      (occursAt_append_iff hoccf.1).2 hoccf
    have hminF : ∀ j, j < Nat.find hocc → ¬ occursAt (c1 ++ c2) tgt j := by
      intro j hj hcF
      have hfit : j + tgt.length ≤ c1.length := by
        have := hoccf.1
        omega
      exact hminf j hj ((occursAt_append_iff hfit).1 hcF)
    rw [takeUntilLoop_success (b := 0) (q := 0) (f := Nat.find hocc) (by omega) (by omega)
      hoccF (fun j _ hj => hminF j hj) none 0]
    have hslice : ((c1 ++ c2).drop 0).take (Nat.find hocc - 0) =
        (c1.drop 0).take (Nat.find hocc - 0) := by
      simp only [List.drop_zero]
      exact List.take_append_of_le_length (by have := hoccf.1; omega)
    by_cases h0 : Nat.find hocc = 0
    · rw [if_pos h0, if_pos h0, hslice]
      rfl
    · rw [if_neg h0, if_neg h0, hslice]
      rfl
  · push_neg at hocc
    have hL : 1 ≤ tgt.length := by
      by_contra h
      exact hocc 0 (occursAt_zero_len (by omega))
    rw [takeUntilLoop_noFind_none (by omega) (by omega) hL (fun j _ => hocc j) 0]
    rw [show wrapStreamError (⟨c1, 0, true⟩ : PStream α) .endOfInput =
      (.consumedErr ⟨0, some .endOfInput⟩ : FastResult (List α)) from rfl]
    dsimp only []
    have hq1 : max (0 + 0) (c1.length + 1 - tgt.length) - 0 = c1.length + 1 - tgt.length := by
      omega
    rw [hq1]
    rw [takeUntilRangeParse_skip tgt
      (show 0 + (c1.length + 1 - tgt.length) ≤ (c1 ++ c2).length by
        simp only [List.length_append]; omega)]
    rw [takeUntilRangeParse_skip tgt (by omega)]
    have hmin2 : ∀ j, j < c1.length + 1 - tgt.length → ¬ occursAt (c1 ++ c2) tgt j :=
      fun j hj hc => hocc j ((occursAt_append_iff (by omega)).1 hc)
    by_cases hoccF : ∃ j, occursAt (c1 ++ c2) tgt j
    · have hge : c1.length + 1 - tgt.length ≤ Nat.find hoccF := by
        by_contra h
        push_neg at h
        exact hmin2 (Nat.find hoccF) h (Nat.find_spec hoccF)
      rw [takeUntilLoop_success (b := 0) (q := 0 + (c1.length + 1 - tgt.length))
        (f := Nat.find hoccF) (by omega) (by omega) (Nat.find_spec hoccF)
        (fun j _ hj => Nat.find_min hoccF hj) none (c1.length + 1 - tgt.length)]
      rw [takeUntilLoop_success (b := 0) (q := 0 + 0) (f := Nat.find hoccF) (by omega)
        (by omega) (Nat.find_spec hoccF) (fun j _ hj => Nat.find_min hoccF hj) none 0]
      by_cases h0 : Nat.find hoccF = 0
      · rw [if_pos h0, if_pos h0]
        rfl
      · rw [if_neg h0, if_neg h0]
    · push_neg at hoccF
      rw [takeUntilLoop_noFind_none (by omega)
        (show 0 + (c1.length + 1 - tgt.length) ≤ (c1 ++ c2).length by
          simp only [List.length_append]; omega)
        hL (fun j _ => hoccF j) (c1.length + 1 - tgt.length)]
      rw [takeUntilLoop_noFind_none (by omega) (by omega) hL (fun j _ => hoccF j) 0]
      rfl
/-- Unpack the basic contract facts of one inner-parser run. -/
theorem inner_run_facts {α β σ : Type} {P : InnerParser α β σ} (hC : InnerContract P)
    (m : Bool) (s : PStream α) (st : σ) {r : FastResult β} {s2 : PStream α} {st2 : σ}
    (hv : s.pos ≤ s.data.length) (hrun : P.run m s st = (r, s2, st2)) :
    s2.data = s.data ∧ s2.more = s.more ∧ s.pos ≤ s2.pos ∧ s2.pos ≤ s.data.length := by
  refine ⟨?_, ?_, ?_, ?_⟩
  · have h := hC.dataEq m s st; rw [hrun] at h; exact h
  · have h := hC.moreEq m s st; rw [hrun] at h; exact h
  · have h := hC.posLe m s st; rw [hrun] at h; exact h
  · have h := hC.posBound m s st hv; rw [hrun] at h; exact h

/-- Chunking idempotence for `recognize_with_value`, first-attempt
success case. -/
theorem chunked_rwv_ok_case {α β σ : Type} {P : InnerParser α β σ} (hC : ChunkContract P)
    (c1 c2 : List α) {r1 : FastResult β} {s1 : PStream α} {st1 : σ} {x : β}
    (hrun : P.run true ⟨c1, 0, true⟩ P.init = (r1, s1, st1)) (hok : isOkWith r1 x) :
    chunked (recognizeWithValuePrim P) c1 c2 = oneShot (recognizeWithValuePrim P) (c1 ++ c2) := by
  obtain ⟨hd1, hm1, hl1, hb1⟩ :=
    inner_run_facts hC.toInnerContract true ⟨c1, 0, true⟩ P.init (Nat.zero_le _) hrun
  unfold chunked oneShot recognizeWithValuePrim
  dsimp only []
  rw [rwv_ok P (resumeStep_first _ _) hrun hok hd1 hm1 (Nat.zero_le _) hb1]
  obtain ⟨r2, st2, hrunF, hok2⟩ := hC.firstOkExt c1 c2 x r1 s1 st1 hrun hok
  have hb1' : s1.pos ≤ c1.length := hb1
  have hbF : s1.pos ≤ (c1 ++ c2).length := by rw [List.length_append]; omega
  rw [rwv_ok P (resumeStep_first _ _) hrunF hok2 rfl rfl (Nat.zero_le _) hbF]
  simp only [Nat.sub_zero, List.drop_zero]
  rw [List.take_append_of_le_length hb1']
  by_cases hp : s1.pos = 0
  · rw [if_pos hp]
    rfl
  · rw [if_neg hp]
    rfl

/-- Chunking idempotence for `recognize_with_value`, first-attempt
Empty-error case. -/
theorem chunked_rwv_emptyErr_case {α β σ : Type} {P : InnerParser α β σ} (hC : ChunkContract P)
    (c1 c2 : List α) {e : ParseError} {s1 : PStream α} {st1 : σ}
    (hrun : P.run true ⟨c1, 0, true⟩ P.init = (.emptyErr e, s1, st1)) :
    chunked (recognizeWithValuePrim P) c1 c2 = oneShot (recognizeWithValuePrim P) (c1 ++ c2) := by
  unfold chunked oneShot recognizeWithValuePrim
  dsimp only []
  rw [rwv_emptyErr P (resumeStep_first _ _) hrun]
  obtain ⟨s2', st2', hrunF⟩ := hC.firstEmptyErrExt c1 c2 e s1 st1 hrun
  rw [rwv_emptyErr P (resumeStep_first _ _) hrunF]
  rfl

/-- Chunking idempotence for `recognize_with_value`, suspension case: the
wrapper fast-forwards the recorded distance and the inner parser resumes
coherently. -/
theorem chunked_rwv_susp_case {α β σ : Type} {P : InnerParser α β σ} (hC : ChunkContract P)
    (c1 c2 : List α) {e : ParseError} {s1 : PStream α} {st1 : σ}
    (hrun : P.run true ⟨c1, 0, true⟩ P.init = (.consumedErr e, s1, st1)) :
    chunked (recognizeWithValuePrim P) c1 c2 = oneShot (recognizeWithValuePrim P) (c1 ++ c2) := by
  obtain ⟨hd1, hm1, hl1, hb1⟩ :=
    inner_run_facts hC.toInnerContract true ⟨c1, 0, true⟩ P.init (Nat.zero_le _) hrun
  have hb1' : s1.pos ≤ c1.length := hb1
  unfold chunked oneShot recognizeWithValuePrim
  dsimp only []
  rw [rwv_consumedErr P (resumeStep_first _ _) hrun]
  dsimp only []
  have hstep := resumeStep_resume_ok (⟨c1 ++ c2, 0, false⟩ : PStream α) (s1.pos - 0)
    (show 0 + (s1.pos - 0) ≤ (c1 ++ c2).length by rw [List.length_append]; omega)
  rw [show ((0 : Nat) + (s1.pos - 0)) = s1.pos from by omega] at hstep
  rcases hrun2 : P.run false ⟨c1 ++ c2, s1.pos, false⟩ st1 with ⟨r2, s2, st2⟩
  rcases hrunF : P.run true ⟨c1 ++ c2, 0, false⟩ P.init with ⟨rF, sF, stF⟩
  have hequiv := hC.resumeCoherent c1 c2 e s1 st1 hrun
  rw [hrun2, hrunF] at hequiv
  obtain ⟨hd2, hm2, hl2, hb2⟩ := inner_run_facts hC.toInnerContract false
    ⟨c1 ++ c2, s1.pos, false⟩ st1
    (show s1.pos ≤ (c1 ++ c2).length by rw [List.length_append]; omega) hrun2
  obtain ⟨hdF, hmF, hlF, hbF⟩ := inner_run_facts hC.toInnerContract true
    ⟨c1 ++ c2, 0, false⟩ P.init (Nat.zero_le _) hrunF
  rcases hequiv with ⟨y, hok2, hokF, hpos⟩ | ⟨e2, he2, heF⟩ | ⟨e2, he2, heF⟩
  · rw [rwv_ok P hstep hrun2 hok2 hd2 hm2 (Nat.zero_le _) hb2]
    rw [rwv_ok P (resumeStep_first _ _) hrunF hokF hdF hmF (Nat.zero_le _) hbF]
    simp only [] at hpos
    rw [hpos]
    rfl
  · simp only [] at he2 heF
    have hrun2' : P.run false ⟨c1 ++ c2, s1.pos, false⟩ st1 = (.emptyErr e2, s2, st2) := by
      rw [hrun2, he2]
    have hrunF' : P.run true ⟨c1 ++ c2, 0, false⟩ P.init = (.emptyErr e2, sF, stF) := by
      rw [hrunF, heF]
    rw [rwv_emptyErr P hstep hrun2', rwv_emptyErr P (resumeStep_first _ _) hrunF']
    rfl
  · simp only [] at he2 heF
    have hrun2' : P.run false ⟨c1 ++ c2, s1.pos, false⟩ st1 = (.consumedErr e2, s2, st2) := by
      rw [hrun2, he2]
    have hrunF' : P.run true ⟨c1 ++ c2, 0, false⟩ P.init = (.consumedErr e2, sF, stF) := by
      rw [hrunF, heF]
    rw [rwv_consumedErr P hstep hrun2', rwv_consumedErr P (resumeStep_first _ _) hrunF']
    rfl

/-- Chunking idempotence for `recognize_with_value`. -/
theorem chunked_rwv_eq {α β σ : Type} (P : InnerParser α β σ) (hC : ChunkContract P)
    (c1 c2 : List α) :
    chunked (recognizeWithValuePrim P) c1 c2 = oneShot (recognizeWithValuePrim P) (c1 ++ c2) := by
  rcases hrun : P.run true ⟨c1, 0, true⟩ P.init with ⟨r1, s1, st1⟩
  cases r1 with
  | consumedOk x => exact chunked_rwv_ok_case hC c1 c2 hrun (Or.inl rfl)
  | emptyOk x => exact chunked_rwv_ok_case hC c1 c2 hrun (Or.inr rfl)
  | consumedErr e => exact chunked_rwv_susp_case hC c1 c2 hrun
  | emptyErr e => exact chunked_rwv_emptyErr_case hC c1 c2 hrun
/-- `recognize` is `recognize_with_value` with the value dropped, also
through the two-chunk protocol. -/
theorem chunked_recognize_map (P : InnerParser α β σ) (c1 c2 : List α) :
    chunked (recognizePrim P) c1 c2 =
      (chunked (recognizeWithValuePrim P) c1 c2).map (FastResult.mapF Prod.fst) := by
  unfold chunked recognizePrim recognizeWithValuePrim
  dsimp only []
  unfold recognizeParse
  rcases h1 : recognizeWithValueParse P true ⟨c1, 0, true⟩ (0, P.init) with - | ⟨r, s, st⟩
  · rfl
  · cases r with
    | consumedOk x => rfl
    | emptyOk x => rfl
    | emptyErr e => rfl
    | consumedErr e =>
      dsimp only [FastResult.mapF]
      rcases h2 : recognizeWithValueParse P false ⟨c1 ++ c2, 0, false⟩ st with - | ⟨r2, s2, st2⟩
      · rfl
      · rfl

/-- `recognize` is `recognize_with_value` with the value dropped, on a
one-shot whole-input call. -/
theorem oneShot_recognize_map (P : InnerParser α β σ) (l : List α) :
    oneShot (recognizePrim P) l =
      (oneShot (recognizeWithValuePrim P) l).map (FastResult.mapF Prod.fst) := by
  unfold oneShot recognizePrim recognizeWithValuePrim
  dsimp only []
  unfold recognizeParse
  rcases h1 : recognizeWithValueParse P true ⟨l, 0, false⟩ (0, P.init) with - | ⟨r, s, st⟩
  · rfl
  · rfl

/-- Chunking idempotence for `recognize`. -/
theorem chunked_recognize_eq {α β σ : Type} (P : InnerParser α β σ) (hC : ChunkContract P)
    (c1 c2 : List α) :
    chunked (recognizePrim P) c1 c2 = oneShot (recognizePrim P) (c1 ++ c2) := by
  rw [chunked_recognize_map, oneShot_recognize_map, chunked_rwv_eq P hC c1 c2]
/-- A minimal contract-abiding inner parser: consumes nothing and returns
the value 7. -/
def idleInner (α : Type) : InnerParser α Nat Unit :=
  ⟨(), fun _ s st => (.emptyOk 7, s, st)⟩

/-- The idle inner parser satisfies the suspend/resume chunk contract. -/
theorem idleInner_contract (α : Type) : ChunkContract (idleInner α) := by
  refine ⟨⟨?_, ?_, ?_, ?_, ?_⟩, ?_, ?_, ?_⟩
  · intro m s st; rfl
  · intro m s st; rfl
  · intro m s st; exact le_refl _
  · intro m s st h; exact h
  · intro m s st e h; exact absurd h (by simp [idleInner])
  · intro c1 c2 x r s1 st1 hrun hok
    have h := hrun
    simp only [idleInner, Prod.mk.injEq] at h
    obtain ⟨h1, h2, -⟩ := h
    subst h1 h2
    rcases hok with h | h
    · exact absurd h (by simp)
    · have hx : x = 7 := by
        have := h
        simp only [FastResult.emptyOk.injEq] at this
        omega
      subst hx
      exact ⟨.emptyOk 7, (), rfl, Or.inr rfl⟩
  · intro c1 c2 e s1 st1 hrun
    exact absurd hrun (by simp [idleInner])
  · intro c1 c2 e s1 st1 hrun
    exact absurd hrun (by simp [idleInner])

/-- C1: splitting any input into two chunks and feeding them through a
suspend/resume cycle (First mode on the first chunk presented as a partial
stream; on suspension, Resume mode with the returned resumption state on
the completed whole input) produces exactly the same outcome - the same
success/failure variant, the same output range, the same error - as one
First-mode call on the whole, fully materialized input, for each primitive
of this core: `take`, `take_while`, `take_while1`, `take_until_range`,
`recognize` and `recognize_with_value` (the latter two for every inner
parser satisfying the suspend/resume contract `ChunkContract`). -/
theorem claim_C1_chunking_idempotence {α β σ : Type} [DecidableEq α]
    (n : Nat) (p : α → Bool) (tgt : List α) (P : InnerParser α β σ)
    (hC : ChunkContract P) (c1 c2 : List α) :
    chunked (takePrim α n) c1 c2 = oneShot (takePrim α n) (c1 ++ c2) ∧
    chunked (takeWhilePrim p) c1 c2 = oneShot (takeWhilePrim p) (c1 ++ c2) ∧
    chunked (takeWhile1Prim p) c1 c2 = oneShot (takeWhile1Prim p) (c1 ++ c2) ∧
    chunked (takeUntilPrim tgt) c1 c2 = oneShot (takeUntilPrim tgt) (c1 ++ c2) ∧
    chunked (recognizePrim P) c1 c2 = oneShot (recognizePrim P) (c1 ++ c2) ∧
    chunked (recognizeWithValuePrim P) c1 c2 = oneShot (recognizeWithValuePrim P) (c1 ++ c2) :=
  ⟨chunked_take_eq n c1 c2, chunked_takeWhile_eq p c1 c2, chunked_takeWhile1_eq p c1 c2,
   chunked_takeUntil_eq tgt c1 c2, chunked_recognize_eq P hC c1 c2, chunked_rwv_eq P hC c1 c2⟩

/-- Witness for C1 at concrete chunks `[1,2]` and `[3,4]`: `take 3`
straddles the boundary, the even-digit `take_while`/`take_while1` suspend
at the first chunk's end, the target `[2,3]` of `take_until_range`
straddles the boundary, and the recognize family wraps a concrete
contract-abiding inner parser. -/
theorem claim_C1_witness :
    chunked (takePrim Nat 3) [1, 2] [3, 4] = oneShot (takePrim Nat 3) ([1, 2] ++ [3, 4]) ∧
    chunked (takeWhilePrim (fun k => decide (k % 2 = 0))) [1, 2] [3, 4] =
      oneShot (takeWhilePrim (fun k => decide (k % 2 = 0))) ([1, 2] ++ [3, 4]) ∧
    chunked (takeWhile1Prim (fun k => decide (k % 2 = 0))) [1, 2] [3, 4] =
      oneShot (takeWhile1Prim (fun k => decide (k % 2 = 0))) ([1, 2] ++ [3, 4]) ∧
    chunked (takeUntilPrim [2, 3]) [1, 2] [3, 4] =
      oneShot (takeUntilPrim [2, 3]) ([1, 2] ++ [3, 4]) ∧
    chunked (recognizePrim (idleInner Nat)) [1, 2] [3, 4] =
      oneShot (recognizePrim (idleInner Nat)) ([1, 2] ++ [3, 4]) ∧
    chunked (recognizeWithValuePrim (idleInner Nat)) [1, 2] [3, 4] =
      oneShot (recognizeWithValuePrim (idleInner Nat)) ([1, 2] ++ [3, 4]) :=
  claim_C1_chunking_idempotence 3 (fun k => decide (k % 2 = 0)) [2, 3] (idleInner Nat)
    (idleInner_contract Nat) [1, 2] [3, 4]

theorem err_stream_take (n : Nat) (s : PStream α) {r : FastResult (List α)} {s' : PStream α}
    (e : ParseError) (hrun : takeParse n s = (r, s'))
    (herr : r = .emptyErr e ∨ r = .consumedErr e) : s' = s := by
  unfold takeParse unconsRange at hrun
  rcases hM : s.unconsRangeM n with e' | ⟨w, s1⟩
  · rw [hM] at hrun
    simp only [Prod.mk.injEq] at hrun
    exact hrun.2.symm
  · rw [hM] at hrun
    simp only [Prod.mk.injEq] at hrun
    rcases herr with h | h <;>
    · rw [h] at hrun
      by_cases h0 : n = 0 <;> simp [h0] at hrun

theorem err_stream_range [DecidableEq α] (t : List α) (s : PStream α) (e : ParseError) :
    ((rangeParse t s).1 = .consumedErr e → (rangeParse t s).2 = s) ∧
    ((rangeParse t s).1 = .emptyErr e →
      ((rangeParse t s).2 = s ∨ (rangeParse t s).2 = { s with pos := s.pos + t.length })) := by
  unfold rangeParse
  rcases hM : s.unconsRangeM t.length with e' | ⟨w, s1⟩
  · exact ⟨fun _ => rfl, fun _ => Or.inl rfl⟩
  · obtain ⟨hw, hs1, hle⟩ := PStream.unconsRangeM_ok hM
    constructor
    · intro h
      dsimp only [] at h
      by_cases hwt : w = t
      · rw [if_pos hwt] at h
        exact absurd h (by simp)
      · rw [if_neg hwt] at h
        exact absurd h (by simp)
    · intro h
      dsimp only [] at h ⊢
      by_cases hwt : w = t
      · rw [if_pos hwt] at h
        exact absurd h (by simp)
      · rw [if_neg hwt]
        exact Or.inr hs1
theorem takeWhileParse_partial_first (p : α → Bool) (isF : Bool) {D : List α} {q : Nat}
    (st : Nat) (hf : (isF || st == 0) = true) :
    takeWhileParse p isF ⟨D, q, true⟩ st =
      if q + ((D.drop q).takeWhile p).length < D.length then
        some ((if ((D.drop q).takeWhile p).length = 0 then .emptyOk ((D.drop q).takeWhile p)
               else .consumedOk ((D.drop q).takeWhile p)),
          ⟨D, q + ((D.drop q).takeWhile p).length, true⟩, st)
      else
        some (.consumedErr ⟨q + ((D.drop q).takeWhile p).length, some .endOfInput⟩,
          ⟨D, q, true⟩, (q + ((D.drop q).takeWhile p).length) - q) := by
  unfold takeWhileParse
  rw [scaffold_partial_first_run _ _ _ _ _ rfl hf]
  dsimp only []
  by_cases hb : q + ((D.drop q).takeWhile p).length < D.length
  · rw [unconsWhile_partial_boundary p hb, if_pos hb]
    by_cases h0 : ((D.drop q).takeWhile p).length = 0
    · rw [if_pos h0]
    · rw [if_neg h0]
  · rw [unconsWhile_partial_exhaust p (by omega), if_neg hb]
    rfl

theorem takeWhileParse_partial_resume (p : α → Bool) {D : List α} {q st : Nat}
    (hst : st ≠ 0) (hsk : q + st ≤ D.length) :
    takeWhileParse p false ⟨D, q, true⟩ st =
      if q + st + ((D.drop (q + st)).takeWhile p).length < D.length then
        some (.consumedOk ((D.drop q).take (st + ((D.drop (q + st)).takeWhile p).length)),
          ⟨D, q + (st + ((D.drop (q + st)).takeWhile p).length), true⟩, 0)
      else
        some (.consumedErr ⟨q + st + ((D.drop (q + st)).takeWhile p).length, some .endOfInput⟩,
          ⟨D, q, true⟩, st + ((D.drop (q + st)).takeWhile p).length) := by
  unfold takeWhileParse parsePartialRange
  rw [if_neg (by simp), if_neg (by simp [hst])]
  rw [PStream.unconsRangeM_eq_ok _ _ (by simpa using hsk)]
  dsimp only []
  by_cases hb : (q + st) + ((D.drop (q + st)).takeWhile p).length < D.length
  · rw [unconsWhile_partial_boundary p hb,
      if_pos (show q + st + ((D.drop (q + st)).takeWhile p).length < D.length from by omega)]
    by_cases h0 : ((D.drop (q + st)).takeWhile p).length = 0
    · rw [if_pos h0]
      dsimp only [PStream.checkpoint_mk, PStream.reset_mk, PStream.distance_mk]
      rw [show q + st + ((D.drop (q + st)).takeWhile p).length - q
          = st + ((D.drop (q + st)).takeWhile p).length from by omega]
      unfold takeParse unconsRange
      rw [PStream.unconsRangeM_eq_ok _ _ (by simp; omega)]
      dsimp only []
      rw [if_neg (show ¬ (st + ((D.drop (q + st)).takeWhile p).length = 0) from by omega)]
    · rw [if_neg h0]
      dsimp only [PStream.checkpoint_mk, PStream.reset_mk, PStream.distance_mk]
      rw [show q + st + ((D.drop (q + st)).takeWhile p).length - q
          = st + ((D.drop (q + st)).takeWhile p).length from by omega]
      unfold takeParse unconsRange
      rw [PStream.unconsRangeM_eq_ok _ _ (by simp; omega)]
      dsimp only []
      rw [if_neg (show ¬ (st + ((D.drop (q + st)).takeWhile p).length = 0) from by omega)]
  · rw [unconsWhile_partial_exhaust p (by omega),
      if_neg (show ¬ (q + st + ((D.drop (q + st)).takeWhile p).length < D.length) from by omega)]
    dsimp only [PStream.checkpoint_mk, PStream.reset_mk, PStream.distance_mk]
    rw [show q + st + ((D.drop (q + st)).takeWhile p).length - q
        = st + ((D.drop (q + st)).takeWhile p).length from by omega]
theorem takeWhileParse_resume_fail (p : α → Bool) {D : List α} {q st : Nat}
    (hst : st ≠ 0) (hsk : D.length < q + st) :
    takeWhileParse p false ⟨D, q, true⟩ st = none := by
  unfold takeWhileParse parsePartialRange
  rw [if_neg (by simp), if_neg (by simp [hst])]
  rw [PStream.unconsRangeM_eq_err _ _ (by simpa using hsk)]

theorem takeWhile1Parse_resume_fail (p : α → Bool) {D : List α} {q st : Nat}
    (hst : st ≠ 0) (hsk : D.length < q + st) :
    takeWhile1Parse p false ⟨D, q, true⟩ st = none := by
  unfold takeWhile1Parse parsePartialRange
  rw [if_neg (by simp), if_neg (by simp [hst])]
  rw [PStream.unconsRangeM_eq_err _ _ (by simpa using hsk)]

theorem takeWhile1Parse_partial_resume (p : α → Bool) {D : List α} {q st : Nat}
    (hst : st ≠ 0) (hsk : q + st ≤ D.length) :
    takeWhile1Parse p false ⟨D, q, true⟩ st =
      if q + st + ((D.drop (q + st)).takeWhile p).length < D.length then
        some (.consumedOk ((D.drop q).take (st + ((D.drop (q + st)).takeWhile p).length)),
          ⟨D, q + (st + ((D.drop (q + st)).takeWhile p).length), true⟩, 0)
      else
        some (.consumedErr ⟨q + st + ((D.drop (q + st)).takeWhile p).length, some .endOfInput⟩,
          ⟨D, q, true⟩, st + ((D.drop (q + st)).takeWhile p).length) := by
  unfold takeWhile1Parse parsePartialRange
  rw [if_neg (by simp), if_neg (by simp [hst])]
  rw [PStream.unconsRangeM_eq_ok _ _ (by simpa using hsk)]
  dsimp only []
  by_cases hb : (q + st) + ((D.drop (q + st)).takeWhile p).length < D.length
  · rw [unconsWhile_partial_boundary p hb,
      if_pos (show q + st + ((D.drop (q + st)).takeWhile p).length < D.length from by omega)]
    by_cases h0 : ((D.drop (q + st)).takeWhile p).length = 0
    · rw [if_pos h0]
      dsimp only [PStream.checkpoint_mk, PStream.reset_mk, PStream.distance_mk]
      rw [show q + st + ((D.drop (q + st)).takeWhile p).length - q
          = st + ((D.drop (q + st)).takeWhile p).length from by omega]
      unfold takeParse unconsRange
      rw [PStream.unconsRangeM_eq_ok _ _ (by simp; omega)]
      dsimp only []
      rw [if_neg (show ¬ (st + ((D.drop (q + st)).takeWhile p).length = 0) from by omega)]
    · rw [if_neg h0]
      dsimp only [PStream.checkpoint_mk, PStream.reset_mk, PStream.distance_mk]
      rw [show q + st + ((D.drop (q + st)).takeWhile p).length - q
          = st + ((D.drop (q + st)).takeWhile p).length from by omega]
      unfold takeParse unconsRange
      rw [PStream.unconsRangeM_eq_ok _ _ (by simp; omega)]
      dsimp only []
      rw [if_neg (show ¬ (st + ((D.drop (q + st)).takeWhile p).length = 0) from by omega)]
  · rw [unconsWhile_partial_exhaust p (by omega),
      if_neg (show ¬ (q + st + ((D.drop (q + st)).takeWhile p).length < D.length) from by omega)]
    dsimp only [PStream.checkpoint_mk, PStream.reset_mk, PStream.distance_mk]
    rw [show q + st + ((D.drop (q + st)).takeWhile p).length - q
        = st + ((D.drop (q + st)).takeWhile p).length from by omega]

theorem err_stream_takeWhile (p : α → Bool) (isF : Bool) (s : PStream α) (st : Nat)
    {r : FastResult (List α)} {s' : PStream α} {st' : Nat} (e : ParseError)
    (hrun : takeWhileParse p isF s st = some (r, s', st'))
    (herr : r = .emptyErr e ∨ r = .consumedErr e) : s' = s := by
  obtain ⟨D, q, m⟩ := s
  cases m with
  | false =>
    rw [takeWhileParse_complete] at hrun
    simp only [Option.some.injEq, Prod.mk.injEq] at hrun
    obtain ⟨h1, -, -⟩ := hrun
    rcases herr with h | h <;>
      (rw [h] at h1; by_cases h0 : ((D.drop q).takeWhile p).length = 0 <;> simp [h0] at h1)
  | true =>
    by_cases hf : (isF || st == 0) = true
    · rw [takeWhileParse_partial_first p isF st hf] at hrun
      by_cases hb : q + ((D.drop q).takeWhile p).length < D.length
      · rw [if_pos hb] at hrun
        simp only [Option.some.injEq, Prod.mk.injEq] at hrun
        obtain ⟨h1, -, -⟩ := hrun
        rcases herr with h | h <;>
          (rw [h] at h1; by_cases h0 : ((D.drop q).takeWhile p).length = 0 <;> simp [h0] at h1)
      · rw [if_neg hb] at hrun
        simp only [Option.some.injEq, Prod.mk.injEq] at hrun
        exact hrun.2.1.symm
    · have hisF : isF = false ∧ ¬ st = 0 := by
        cases isF <;> simp_all
      obtain ⟨rfl, hst⟩ := hisF
      by_cases hsk : q + st ≤ D.length
      · rw [takeWhileParse_partial_resume p hst hsk] at hrun
        by_cases hb : q + st + ((D.drop (q + st)).takeWhile p).length < D.length
        · rw [if_pos hb] at hrun
          simp only [Option.some.injEq, Prod.mk.injEq] at hrun
          obtain ⟨h1, -, -⟩ := hrun
          rcases herr with h | h <;> (rw [h] at h1; simp at h1)
        · rw [if_neg hb] at hrun
          simp only [Option.some.injEq, Prod.mk.injEq] at hrun
          exact hrun.2.1.symm
      · rw [takeWhileParse_resume_fail p hst (by omega)] at hrun
        exact absurd hrun (by simp)

theorem err_stream_takeWhile1 (p : α → Bool) (isF : Bool) (s : PStream α) (st : Nat)
    {r : FastResult (List α)} {s' : PStream α} {st' : Nat} (e : ParseError)
    (hrun : takeWhile1Parse p isF s st = some (r, s', st'))
    (herr : r = .emptyErr e ∨ r = .consumedErr e) : s' = s := by
  obtain ⟨D, q, m⟩ := s
  cases m with
  | false =>
    rw [takeWhile1Parse_complete] at hrun
    cases hd : D.drop q with
    | nil =>
      rw [hd] at hrun
      simp only [Option.some.injEq, Prod.mk.injEq] at hrun
      exact hrun.2.1.symm
    | cons x xs =>
      rw [hd] at hrun
      dsimp only [] at hrun
      by_cases hx : p x = true
      · rw [if_pos hx, takeWhileParse_complete] at hrun
        simp only [Option.some.injEq, Prod.mk.injEq] at hrun
        obtain ⟨h1, -, -⟩ := hrun
        rcases herr with h | h <;>
          (rw [h] at h1; by_cases h0 : ((D.drop q).takeWhile p).length = 0 <;> simp [h0] at h1)
      · rw [if_neg hx] at hrun
        simp only [Option.some.injEq, Prod.mk.injEq] at hrun
        exact hrun.2.1.symm
  | true =>
    by_cases hf : (isF || st == 0) = true
    · unfold takeWhile1Parse at hrun
      rw [scaffold_partial_first_run _ _ _ _ _ rfl hf] at hrun
      dsimp only [] at hrun
      rw [unconsWhile1_cases p D q true] at hrun
      cases hd : D.drop q with
      | nil =>
        rw [hd] at hrun
        rw [show wrapStreamError (⟨D, q, true⟩ : PStream α) .endOfInput =
          (.consumedErr ⟨q, some .endOfInput⟩ : FastResult (List α)) from rfl] at hrun
        dsimp only [PStream.reset_mk] at hrun
        simp only [Option.some.injEq, Prod.mk.injEq] at hrun
        exact hrun.2.1.symm
      | cons x xs =>
        rw [hd] at hrun
        dsimp only [] at hrun
        by_cases hx : p x = true
        · rw [if_pos hx] at hrun
          by_cases hb : q + ((D.drop q).takeWhile p).length < D.length
          · rw [unconsWhile_partial_boundary p hb] at hrun
            by_cases h0 : ((D.drop q).takeWhile p).length = 0
            · rw [if_pos h0] at hrun
              simp only [Option.some.injEq, Prod.mk.injEq] at hrun
              obtain ⟨h1, -, -⟩ := hrun
              rcases herr with h | h <;> (rw [h] at h1; simp at h1)
            · rw [if_neg h0] at hrun
              simp only [Option.some.injEq, Prod.mk.injEq] at hrun
              obtain ⟨h1, -, -⟩ := hrun
              rcases herr with h | h <;> (rw [h] at h1; simp at h1)
          · rw [unconsWhile_partial_exhaust p (by omega)] at hrun
            dsimp only [PStream.reset_mk] at hrun
            simp only [Option.some.injEq, Prod.mk.injEq] at hrun
            exact hrun.2.1.symm
        · rw [if_neg hx] at hrun
          simp only [Option.some.injEq, Prod.mk.injEq] at hrun
          exact hrun.2.1.symm
    · have hisF : isF = false ∧ ¬ st = 0 := by
        cases isF <;> simp_all
      obtain ⟨rfl, hst⟩ := hisF
      by_cases hsk : q + st ≤ D.length
      · rw [takeWhile1Parse_partial_resume p hst hsk] at hrun
        by_cases hb : q + st + ((D.drop (q + st)).takeWhile p).length < D.length
        · rw [if_pos hb] at hrun
          simp only [Option.some.injEq, Prod.mk.injEq] at hrun
          obtain ⟨h1, -, -⟩ := hrun
          rcases herr with h | h <;> (rw [h] at h1; simp at h1)
        · rw [if_neg hb] at hrun
          simp only [Option.some.injEq, Prod.mk.injEq] at hrun
          exact hrun.2.1.symm
      · rw [takeWhile1Parse_resume_fail p hst (by omega)] at hrun
        exact absurd hrun (by simp)
theorem PStream.eq_of_fields {s s' : PStream α} (h1 : s'.data = s.data)
    (h2 : s'.pos = s.pos) (h3 : s'.more = s.more) : s' = s := by
  obtain ⟨D, q, m⟩ := s
  obtain ⟨D', q', m'⟩ := s'
  simp only [] at h1 h2 h3
  subst h1 h2 h3
  rfl

theorem err_stream_takeUntil [DecidableEq α] (t : List α) (s : PStream α) (tc : Nat)
    {r : FastResult (List α)} {s' : PStream α} {tc' : Nat} (e : ParseError)
    (hv : s.pos ≤ s.data.length)
    (hrun : takeUntilRangeParse t s tc = some (r, s', tc'))
    (herr : r = .emptyErr e ∨ r = .consumedErr e) : s' = s := by
  obtain ⟨D, q, m⟩ := s
  have hv' : q ≤ D.length := hv
  by_cases hsk : q + tc ≤ D.length
  · rw [takeUntilRangeParse_skip t hsk] at hrun
    by_cases hocc : ∃ j, q + tc ≤ j ∧ occursAt D t j
    · have hspec := Nat.find_spec hocc
      have hmin : ∀ j, q + tc ≤ j → j < Nat.find hocc → ¬ occursAt D t j := by
        intro j h1 h2 h3
        exact Nat.find_min hocc h2 ⟨h1, h3⟩
      rw [takeUntilLoop_success (b := q) (q := q + tc) (f := Nat.find hocc) (by omega)
        hspec.1 hspec.2 hmin none tc] at hrun
      by_cases h0 : Nat.find hocc = q
      · rw [if_pos h0] at hrun
        simp only [Option.some.injEq, Prod.mk.injEq] at hrun
        obtain ⟨h1, -, -⟩ := hrun
        rcases herr with h | h <;> (rw [h] at h1; simp at h1)
      · rw [if_neg h0] at hrun
        simp only [Option.some.injEq, Prod.mk.injEq] at hrun
        obtain ⟨h1, -, -⟩ := hrun
        rcases herr with h | h <;> (rw [h] at h1; simp at h1)
    · push_neg at hocc
      have hL : 1 ≤ t.length := by
        by_contra hh
        have ht : t = [] := List.eq_nil_of_length_eq_zero (by omega)
        subst ht
        exact hocc (q + tc) le_rfl ⟨by simpa using hsk, by simp⟩
      rw [takeUntilLoop_noFind_none (by omega) (by omega) hL hocc tc] at hrun
      simp only [Option.some.injEq, Prod.mk.injEq] at hrun
      obtain ⟨-, h2, -⟩ := hrun
      exact h2.symm
  · rw [takeUntilRangeParse_skip_fail t (by omega)] at hrun
    simp only [Option.some.injEq, Prod.mk.injEq] at hrun
    exact hrun.2.1.symm

theorem err_stream_rwv {α β σ : Type} (P : InnerParser α β σ) (hC : InnerContract P)
    (s : PStream α) (d0 : Nat) (st : σ) {r : FastResult (List α × β)} {s' : PStream α}
    {st' : Nat × σ} (e : ParseError) (hv : s.pos ≤ s.data.length)
    (hrun : recognizeWithValueParse P true s (d0, st) = some (r, s', st'))
    (herr : r = .emptyErr e ∨ r = .consumedErr e) : s' = s := by
  rcases hP : P.run true s st with ⟨rP, s2, st2⟩
  obtain ⟨hd, hm, hl, hb⟩ := inner_run_facts hC true s st hv hP
  cases rP with
  | consumedOk x =>
    rw [rwv_ok P (resumeStep_first _ _) hP (Or.inl rfl) hd hm hl hb] at hrun
    simp only [Option.some.injEq, Prod.mk.injEq] at hrun
    obtain ⟨h1, -, -⟩ := hrun
    rcases herr with h | h <;>
      (rw [h] at h1; by_cases h0 : s2.pos - s.pos = 0 <;> simp [h0] at h1)
  | emptyOk x =>
    rw [rwv_ok P (resumeStep_first _ _) hP (Or.inr rfl) hd hm hl hb] at hrun
    simp only [Option.some.injEq, Prod.mk.injEq] at hrun
    obtain ⟨h1, -, -⟩ := hrun
    rcases herr with h | h <;>
      (rw [h] at h1; by_cases h0 : s2.pos - s.pos = 0 <;> simp [h0] at h1)
  | consumedErr e2 =>
    rw [rwv_consumedErr P (resumeStep_first _ _) hP] at hrun
    simp only [Option.some.injEq, Prod.mk.injEq] at hrun
    obtain ⟨-, h2, -⟩ := hrun
    rw [← h2]
    exact PStream.eq_of_fields hd rfl hm
  | emptyErr e2 =>
    rw [rwv_emptyErr P (resumeStep_first _ _) hP] at hrun
    simp only [Option.some.injEq, Prod.mk.injEq] at hrun
    obtain ⟨-, h2, -⟩ := hrun
    rw [← h2]
    have hpos : s2.pos = s.pos := by
      have h := hC.emptyErrPos true s st e2
      rw [hP] at h
      exact h rfl
    exact PStream.eq_of_fields hd hpos hm

theorem err_stream_recognize {α β σ : Type} (P : InnerParser α β σ) (hC : InnerContract P)
    (s : PStream α) (d0 : Nat) (st : σ) {r : FastResult (List α)} {s' : PStream α}
    {st' : Nat × σ} (e : ParseError) (hv : s.pos ≤ s.data.length)
    (hrun : recognizeParse P true s (d0, st) = some (r, s', st'))
    (herr : r = .emptyErr e ∨ r = .consumedErr e) : s' = s := by
  unfold recognizeParse at hrun
  rcases hW : recognizeWithValueParse P true s (d0, st) with - | ⟨rW, sW, stW⟩
  · rw [hW] at hrun
    exact absurd hrun (by simp)
  · rw [hW] at hrun
    simp only [Option.some.injEq, Prod.mk.injEq] at hrun
    obtain ⟨h1, h2, -⟩ := hrun
    rw [← h2]
    have herrW : rW = .emptyErr e ∨ rW = .consumedErr e := by
      rcases herr with h | h <;> rw [h] at h1 <;> cases rW <;>
        simp only [FastResult.mapF] at h1 <;> simp_all
    have := err_stream_rwv P hC s d0 st e hv hW herrW
    rw [← this]
/-- Claim C2 counterexample: on the partial stream [true] with all elements
satisfying the predicate, take_while suspends with a ConsumedErr whose error
position is 1 (the end of the scanned input), yet the returned stream has its
cursor reset to the call-start position 0, not left at the failure position.
This refutes the claim that after a ConsumedErr the cursor reflects the
partially consumed input. -/
theorem claim_C2_counterexample :
    takeWhileParse (fun b => b) true (⟨[true], 0, true⟩ : PStream Bool) 0 =
      some (.consumedErr ⟨1, some .endOfInput⟩, ⟨[true], 0, true⟩, 1) ∧
    (⟨[true], 0, true⟩ : PStream Bool).pos ≠ (1 : Nat) := by
  constructor
  · decide
  · decide

/-- Claim C2 (amended): for every range primitive, any error outcome
(EmptyErr or ConsumedErr) leaves the stream cursor exactly at the position it
had when the parser was called -- on ConsumedErr the consumed distance is
recorded in the resumption state and the cursor is reset -- with one
exception: range itself, on a content mismatch, reports EmptyErr but leaves
the cursor advanced past the compared span (the disjunction in the second
clause). The recognize family clauses cover First-mode calls with an inner
parser satisfying the InnerContract. -/
theorem claim_C2_amended {α β σ : Type} [DecidableEq α] :
    (∀ (n : Nat) (s : PStream α) (r : FastResult (List α)) (s' : PStream α) (e : ParseError),
      takeParse n s = (r, s') → (r = .emptyErr e ∨ r = .consumedErr e) → s' = s) ∧
    (∀ (t : List α) (s : PStream α) (e : ParseError),
      ((rangeParse t s).1 = .consumedErr e → (rangeParse t s).2 = s) ∧
      ((rangeParse t s).1 = .emptyErr e →
        ((rangeParse t s).2 = s ∨
         (rangeParse t s).2 = { s with pos := s.pos + t.length }))) ∧
    (∀ (p : α → Bool) (isF : Bool) (s : PStream α) (st : Nat) (r : FastResult (List α))
      (s' : PStream α) (st' : Nat) (e : ParseError),
      takeWhileParse p isF s st = some (r, s', st') →
      (r = .emptyErr e ∨ r = .consumedErr e) → s' = s) ∧
    (∀ (p : α → Bool) (isF : Bool) (s : PStream α) (st : Nat) (r : FastResult (List α))
      (s' : PStream α) (st' : Nat) (e : ParseError),
      takeWhile1Parse p isF s st = some (r, s', st') →
      (r = .emptyErr e ∨ r = .consumedErr e) → s' = s) ∧
    (∀ (t : List α) (s : PStream α) (tc : Nat) (r : FastResult (List α)) (s' : PStream α)
      (tc' : Nat) (e : ParseError), s.pos ≤ s.data.length →
      takeUntilRangeParse t s tc = some (r, s', tc') →
      (r = .emptyErr e ∨ r = .consumedErr e) → s' = s) ∧
    (∀ (P : InnerParser α β σ), InnerContract P →
      ∀ (s : PStream α) (d0 : Nat) (st : σ) (r : FastResult (List α × β)) (s' : PStream α)
        (st' : Nat × σ) (e : ParseError), s.pos ≤ s.data.length →
        recognizeWithValueParse P true s (d0, st) = some (r, s', st') →
        (r = .emptyErr e ∨ r = .consumedErr e) → s' = s) ∧
    (∀ (P : InnerParser α β σ), InnerContract P →
      ∀ (s : PStream α) (d0 : Nat) (st : σ) (r : FastResult (List α)) (s' : PStream α)
        (st' : Nat × σ) (e : ParseError), s.pos ≤ s.data.length →
        recognizeParse P true s (d0, st) = some (r, s', st') →
        (r = .emptyErr e ∨ r = .consumedErr e) → s' = s) :=
  ⟨fun n s r s' e hrun herr => err_stream_take n s e hrun herr,
   fun t s e => err_stream_range t s e,
   fun p isF s st r s' st' e hrun herr => err_stream_takeWhile p isF s st e hrun herr,
   fun p isF s st r s' st' e hrun herr => err_stream_takeWhile1 p isF s st e hrun herr,
   fun t s tc r s' tc' e hv hrun herr => err_stream_takeUntil t s tc e hv hrun herr,
   fun P hC s d0 st r s' st' e hv hrun herr => err_stream_rwv P hC s d0 st e hv hrun herr,
   fun P hC s d0 st r s' st' e hv hrun herr => err_stream_recognize P hC s d0 st e hv hrun herr⟩

/-- Witness for claim C2 (amended): instantiates the range clause at the
concrete mismatch of target [9,9] against input [1,2,3]. -/
theorem claim_C2_amended_witness :
    (rangeParse [9, 9] (⟨[1, 2, 3], 0, false⟩ : PStream Nat)).2 = ⟨[1, 2, 3], 0, false⟩ ∨
    (rangeParse [9, 9] (⟨[1, 2, 3], 0, false⟩ : PStream Nat)).2 =
      { (⟨[1, 2, 3], 0, false⟩ : PStream Nat) with pos := 0 + [9, 9].length } := by
  have h := (claim_C2_amended (α := Nat) (β := Nat) (σ := Unit)).2.1
    [9, 9] (⟨[1, 2, 3], 0, false⟩ : PStream Nat) ⟨0, none⟩
  exact h.2 (by decide)

end Combine
